import Mathlib

/-!
Shallow embedding of the document store in `src/exercises/exercise-15/database.ts`.

Modelling choices:
* A record field value (the caller-supplied `T`'s field types) is drawn from the
  primitive JSON universe: integers, strings, booleans, `null`.  JavaScript
  numbers are modelled as `Int` (the program and the spec only ever use integral
  numbers); strings are `List Char`.
* A `Record` is an association list of (field name, value) in object-key order,
  mirroring a JavaScript object's insertion-ordered string keys.
* The file content is a `List Char`; the builtins `JSON.stringify` / `JSON.parse`
  are translated as an executable serializer and a strict recursive-descent
  parser over that universe (whitespace-free, exactly the shape `JSON.stringify`
  emits; `JSON.parse` failures become `none`).
* Effectful methods become explicit state transformers
  `Content → Option (Content × result)`; a thrown exception is `none`.
-/

/-- Character strings, as JavaScript-style lists of characters. -/
abbrev Str := List Char

/-- The primitive JSON value universe used for record fields. -/
inductive Value where
  | num (n : Int)
  | str (s : Str)
  | bool (b : Bool)
  | null
deriving DecidableEq, Repr

/-- A record: a JavaScript object restricted to primitive field values,
in key insertion order. -/
abbrev DBRow := List (Str × Value)

/-- JavaScript property lookup `data[key]`: `none` models `undefined`. -/
def getField (d : DBRow) (k : Str) : Option Value :=
  (d.find? (fun p => p.1 == k)).map (fun p => p.2)

/-- A `QueryOperator` node (`{$eq: v} | {$gt: n} | {$lt: n} | {$in: vs}`),
modelled as the set of recognized keys that may be present, so that the
source's key-presence dispatch (`"$eq" in query`, ...) is represented
faithfully, including its fixed priority order and fail-closed default. -/
structure QueryOperator where
  eq? : Option Value := none
  lt? : Option Int := none
  gt? : Option Int := none
  mem? : Option (List Value) := none
deriving DecidableEq, Repr

/-- `Database.operatorToPredicate` (database.ts lines 73-86): dispatches on
`$eq`, then `$lt` (only when the field value is a number), then `$gt`
(likewise), then `$in`, and otherwise returns `false`. -/
def operatorToPredicate (q : QueryOperator) (field : Option Value) : Bool :=
  match q.eq? with
  | some v => field == some v
  | none =>
    match q.lt?, field with
    | some bound, some (Value.num m) => decide (m < bound)
    | _, _ =>
      match q.gt?, field with
      | some bound, some (Value.num m) => decide (m > bound)
      | _, _ =>
        match q.mem? with
        | some vs =>
          match field with
          | some v => vs.contains v
          | none => false
        | none => false

/-- A `Query`: field-name-to-operator mapping in key order. -/
abbrev Query := List (Str × QueryOperator)

/-- `Database.queryToPredicate` (lines 88-94): every key of the query must
pass its operator against the record's corresponding field. -/
def queryToPredicate (q : Query) (d : DBRow) : Bool :=
  q.all (fun p => operatorToPredicate p.2 (getField d p.1))

/-- A top-level predicate tree (`TopLevelOperator<T>` in the source). -/
inductive TLO where
  | query (q : Query)
  | and (qs : List TLO)
  | or (qs : List TLO)
  | text (s : Str)

/-- Word characters of the JavaScript regex `\b` assertion (`\w`: ASCII
letters, digits, underscore). -/
def isWordChar (c : Char) : Bool :=
  (('a' ≤ c && c ≤ 'z') || ('A' ≤ c && c ≤ 'Z') || ('0' ≤ c && c ≤ '9') || c == '_')

/-- Word-character test lifted to a possibly-missing character. -/
def wordOpt : Option Char → Bool
  | some c => isWordChar c
  | none => false

/-- Whether the character at index `i` of `text` is a word character
(out-of-range counts as non-word, as in the regex semantics). -/
def wordAt (text : Str) (i : Nat) : Bool :=
  wordOpt text[i]?

/-- The regex `\b` assertion at position `i` of `text`: the word-ness of the
characters on the two sides of the position differs. -/
def boundaryAt (text : Str) (i : Nat) : Bool :=
  (match i with
   | 0 => false
   | j + 1 => wordAt text j) != wordAt text i

/-- Case-insensitive character comparison, the ASCII canonicalization
performed by a regex with the `i` flag. -/
def ciEqChar (c d : Char) : Bool :=
  c.toLower == d.toLower

/-- Case-insensitively match the pattern against the front of a text suffix. -/
def ciAtFront : Str → Str → Bool
  | [], _ => true
  | _ :: _, [] => false
  | p :: ps, t :: ts => ciEqChar p t && ciAtFront ps ts

/-- One candidate match of `new RegExp("\\b" + pat + "\\b", "i")` starting at
index `i` of `text`.  Modelled for search strings that contain no regex
metacharacters (the spec documents that callers must not pass such input). -/
def matchAt (pat text : Str) (i : Nat) : Bool :=
  boundaryAt text i && boundaryAt text (i + pat.length) && ciAtFront pat (List.drop i text)

/-- `new RegExp("\\b" + pat + "\\b", "i").test(text)`: some starting
position of `text` matches. -/
def regexTestWordI (pat text : Str) : Bool :=
  (List.range (text.length + 1)).any (fun i => matchAt pat text i)

/-- Fueled digit list of a natural number, most significant first. -/
def digitChar : Nat → Char
  | 0 => '0' | 1 => '1' | 2 => '2' | 3 => '3' | 4 => '4'
  | 5 => '5' | 6 => '6' | 7 => '7' | 8 => '8' | 9 => '9'
  | _ => '*'

/-- Decimal digits of `n` (most significant first), with structural fuel so
that the definition reduces in the kernel. -/
def natDigitsAux : Nat → Nat → Str
  | 0, _ => []
  | fuel + 1, n =>
    if n < 10 then [digitChar n]
    else natDigitsAux fuel (n / 10) ++ [digitChar (n % 10)]

/-- Decimal representation of a natural number, as `String(n)` /
`JSON.stringify(n)` produce for non-negative integers. -/
def natDigits (n : Nat) : Str :=
  natDigitsAux (n + 1) n

/-- Decimal representation of an integer, as JavaScript stringifies an
integral number. -/
def intSer (n : Int) : Str :=
  if n < 0 then '-' :: natDigits n.natAbs else natDigits n.toNat

/-- JavaScript `ToString` of a field value as seen by `RegExp.test`
(`undefined` coerces to the string "undefined"). -/
def valueText : Option Value → Str
  | some (Value.str s) => s
  | some (Value.num n) => intSer n
  | some (Value.bool true) => String.toList "true"
  | some (Value.bool false) => String.toList "false"
  | some Value.null => String.toList "null"
  | none => String.toList "undefined"

mutual

/-- `Database.topLevelPredicate` (lines 96-112): `$and` conjunction, `$or`
disjunction, `$text` whole-word case-insensitive search over the configured
full-text fields, and otherwise delegation to `queryToPredicate`. -/
def topLevelPredicate (fts : List Str) : TLO → DBRow → Bool
  | TLO.query qq, d => queryToPredicate qq d
  | TLO.and qs, d => tloAll fts qs d
  | TLO.or qs, d => tloAny fts qs d
  | TLO.text s, d =>
    (fts.map (fun f => valueText (getField d f))).any (fun t => regexTestWordI s t)

/-- `Array.prototype.every` over the children of an `$and` node. -/
def tloAll (fts : List Str) : List TLO → DBRow → Bool
  | [], _ => true
  | q :: qs, d => topLevelPredicate fts q d && tloAll fts qs d

/-- `Array.prototype.some` over the children of an `$or` node. -/
def tloAny (fts : List Str) : List TLO → DBRow → Bool
  | [], _ => false
  | q :: qs, d => topLevelPredicate fts q d || tloAny fts qs d

end

/-- Lowercase hexadecimal digit, as emitted in `JSON.stringify`'s
control-character escapes. -/
def hexDigitChar : Nat → Char
  | 0 => '0' | 1 => '1' | 2 => '2' | 3 => '3' | 4 => '4'
  | 5 => '5' | 6 => '6' | 7 => '7' | 8 => '8' | 9 => '9'
  | 10 => 'a' | 11 => 'b' | 12 => 'c' | 13 => 'd' | 14 => 'e' | 15 => 'f'
  | _ => '*'

/-- `JSON.stringify`'s escaping of one string character: named escapes for
quote, backslash and the common control characters, `\u00XX` for the other
control characters, the character itself otherwise. -/
def escapeChar (c : Char) : Str :=
  if c = '"' then ['\\', '"']
  else if c = '\\' then ['\\', '\\']
  else if c = '\n' then ['\\', 'n']
  else if c = '\t' then ['\\', 't']
  else if c = '\r' then ['\\', 'r']
  else if c = '\x08' then ['\\', 'b']
  else if c = '\x0c' then ['\\', 'f']
  else if c.toNat < 32 then
    ['\\', 'u', '0', '0', hexDigitChar (c.toNat / 16), hexDigitChar (c.toNat % 16)]
  else [c]

/-- Escape a whole string body. -/
def escapeString (s : Str) : Str :=
  match s with
  | [] => []
  | c :: cs => escapeChar c ++ escapeString cs

/-- `JSON.stringify` of one primitive value. -/
def serializeValue : Value → Str
  | Value.num n => intSer n
  | Value.str s => '"' :: (escapeString s ++ ['"'])
  | Value.bool true => String.toList "true"
  | Value.bool false => String.toList "false"
  | Value.null => String.toList "null"

/-- One `"key":value` member of a serialized object. -/
def serializeField (f : Str × Value) : Str :=
  '"' :: (escapeString f.1 ++ '"' :: ':' :: serializeValue f.2)

/-- Comma-separated members of a serialized object. -/
def serializeFields : List (Str × Value) → Str
  | [] => []
  | [f] => serializeField f
  | f :: fs => serializeField f ++ ',' :: serializeFields fs

/-- `JSON.stringify(record)`: the whitespace-free object serialization. -/
def serializeRecord (r : DBRow) : Str :=
  '{' :: (serializeFields r ++ ['}'])

/-- Numeric value of a decimal digit character, if it is one. -/
def digitVal (c : Char) : Option Nat :=
  if '0' ≤ c ∧ c ≤ '9' then some (c.toNat - 48) else none

/-- Consume a maximal run of decimal digits, folding them onto `acc`. -/
def parseDigits : Str → Nat → Nat × Str
  | [], acc => (acc, [])
  | c :: rest, acc =>
    match digitVal c with
    | some d => parseDigits rest (acc * 10 + d)
    | none => (acc, c :: rest)

/-- Parse a JSON natural number (no leading zeros: a leading `0` is the whole
number, so that a following digit makes the enclosing parse fail, as
`JSON.parse` rejects `01`). -/
def parseNat : Str → Option (Nat × Str)
  | [] => none
  | c :: rest =>
    match digitVal c with
    | none => none
    | some 0 => some (0, rest)
    | some d => some (parseDigits rest d)

/-- Numeric value of a hexadecimal digit character, if it is one. -/
def hexVal (c : Char) : Option Nat :=
  if '0' ≤ c ∧ c ≤ '9' then some (c.toNat - 48)
  else if 'a' ≤ c ∧ c ≤ 'f' then some (c.toNat - 87)
  else if 'A' ≤ c ∧ c ≤ 'F' then some (c.toNat - 55)
  else none

/-- Decoding of a single-character JSON string escape. -/
def unescapeChar (e : Char) : Option Char :=
  if e = '"' then some '"'
  else if e = '\\' then some '\\'
  else if e = 'n' then some '\n'
  else if e = 't' then some '\t'
  else if e = 'r' then some '\r'
  else if e = 'b' then some '\x08'
  else if e = 'f' then some '\x0c'
  else none

mutual

/-- Parse the body of a JSON string after the opening quote, returning the
decoded characters and the input remaining after the closing quote. -/
def parseStringBody : Str → Option (Str × Str)
  | [] => none
  | c :: rest =>
    if c = '"' then some ([], rest)
    else if c = '\\' then parseEscape rest
    else (parseStringBody rest).map (fun p => (c :: p.1, p.2))

/-- Parse what follows a backslash inside a JSON string. -/
def parseEscape : Str → Option (Str × Str)
  | 'u' :: h1 :: h2 :: h3 :: h4 :: rest2 =>
    match hexVal h1, hexVal h2, hexVal h3, hexVal h4 with
    | some a, some b, some c2, some d2 =>
      (parseStringBody rest2).map
        (fun p => (Char.ofNat (((a * 16 + b) * 16 + c2) * 16 + d2) :: p.1, p.2))
    | _, _, _, _ => none
  | e :: rest2 =>
    match unescapeChar e with
    | some d => (parseStringBody rest2).map (fun p => (d :: p.1, p.2))
    | none => none
  | [] => none

end

/-- Parse one primitive JSON value. -/
def parseValue (cs : Str) : Option (Value × Str) :=
  match cs with
  | [] => none
  | c :: rest =>
    if c = '"' then (parseStringBody rest).map (fun p => (Value.str p.1, p.2))
    else if c = '-' then (parseNat rest).map (fun p => (Value.num (-(p.1 : Int)), p.2))
    else if c = 't' then
      match rest with
      | 'r' :: 'u' :: 'e' :: t => some (Value.bool true, t)
      | _ => none
    else if c = 'f' then
      match rest with
      | 'a' :: 'l' :: 's' :: 'e' :: t => some (Value.bool false, t)
      | _ => none
    else if c = 'n' then
      match rest with
      | 'u' :: 'l' :: 'l' :: t => some (Value.null, t)
      | _ => none
    else (parseNat cs).map (fun p => (Value.num (p.1 : Int), p.2))

/-- Parse the members of a JSON object after the opening brace, for a
non-empty member list; `fuel` bounds the number of members. -/
def parseFields : Nat → Str → Option (List (Str × Value) × Str)
  | 0, _ => none
  | fuel + 1, cs =>
    match cs with
    | '"' :: rest =>
      match parseStringBody rest with
      | none => none
      | some (key, r1) =>
        match r1 with
        | ':' :: r2 =>
          match parseValue r2 with
          | none => none
          | some (v, r3) =>
            match r3 with
            | ',' :: r4 => (parseFields fuel r4).map (fun p => ((key, v) :: p.1, p.2))
            | '}' :: r4 => some ([(key, v)], r4)
            | _ => none
        | _ => none
    | _ => none

/-- `JSON.parse` of one record object (strict: exactly the whitespace-free
shape `JSON.stringify` produces). -/
def parseRecord (cs : Str) : Option (DBRow × Str) :=
  match cs with
  | '{' :: '}' :: rest => some ([], rest)
  | '{' :: rest => parseFields rest.length rest
  | _ => none

/-- Log line tag: `E` live entry, `D` tombstone. -/
inductive Tag where
  | E
  | D
deriving DecidableEq, Repr

/-- One parsed log entry (`DatabaseRecord<T>` in the source). -/
structure DBRecord where
  type : Tag
  data : DBRow
deriving DecidableEq, Repr

/-- The file content. -/
abbrev Content := List Char

/-- Serialize one log entry to its line (`${record.type}${JSON.stringify(record.data)}`). -/
def recordLine (r : DBRecord) : Str :=
  (match r.type with
   | Tag.E => 'E'
   | Tag.D => 'D') :: serializeRecord r.data

/-- `Array.prototype.join("\n")` over lines. -/
def joinLines : List Str → Str
  | [] => []
  | [l] => l
  | l :: ls => l ++ '\n' :: joinLines ls

/-- `Database.writeToFile` (lines 125-132): full rewrite with one line per
entry and a trailing newline. -/
def writeToFile (rs : List DBRecord) : Content :=
  joinLines (rs.map recordLine) ++ ['\n']

/-- `String.prototype.split("\n")`. -/
def splitNl : Content → List Str
  | [] => [[]]
  | c :: rest =>
    if c = '\n' then [] :: splitNl rest
    else
      match splitNl rest with
      | l :: ls => (c :: l) :: ls
      | [] => [[c]]

/-- A blank line, dropped by the reader (`line.trim().length > 0` fails
exactly when every character is whitespace). -/
def blankLine (l : Str) : Bool :=
  l.all (fun c => c.isWhitespace)

/-- Parse one non-blank log line: the leading character is the tag (`E`, or
anything else is `D`), the remainder must be a complete JSON record. -/
def parseLine (l : Str) : Option DBRecord :=
  match l with
  | [] => none
  | t :: rest =>
    match parseRecord rest with
    | some (r, []) => some { type := if t = 'E' then Tag.E else Tag.D, data := r }
    | _ => none

/-- Parse a list of lines; any line's failure aborts the whole read, as a
thrown `JSON.parse` exception aborts the `.map` in the source. -/
def parseLines : List Str → Option (List DBRecord)
  | [] => some []
  | l :: ls =>
    match parseLine l, parseLines ls with
    | some r, some rs => some (r :: rs)
    | _, _ => none

/-- `Database.readFromFile` (lines 114-123): split on newlines, drop blank
lines, classify each tag and parse each payload. -/
def readFromFile (c : Content) : Option (List DBRecord) :=
  parseLines ((splitNl c).filter (fun l => !blankLine l))

/-- A sort direction (`1 | -1` in `QueryOptions.sort`). -/
inductive SortDir where
  | asc
  | desc
deriving DecidableEq, Repr

/-- The numeric order value of a direction. -/
def SortDir.toInt : SortDir → Int
  | SortDir.asc => 1
  | SortDir.desc => -1

/-- Leading/trailing-whitespace trim used by JavaScript `ToNumber` on strings. -/
def trimWs (s : Str) : Str :=
  (s.dropWhile (fun c => c.isWhitespace)).reverse.dropWhile (fun c => c.isWhitespace) |>.reverse

/-- Fold a digit string to its value, `none` if empty or not all digits. -/
def allDigitsVal : Str → Option Nat
  | [] => none
  | cs => go cs 0
where
  /-- Accumulate digit values left to right. -/
  go : Str → Nat → Option Nat
    | [], acc => some acc
    | c :: rest, acc =>
      match digitVal c with
      | some d => go rest (acc * 10 + d)
      | none => none

/-- JavaScript `ToNumber` of a string, restricted to integral decimal
numerals (the value universe of this model); `none` models `NaN`. -/
def strToNumber (s : Str) : Option Int :=
  match trimWs s with
  | [] => some 0
  | '-' :: ds => (allDigitsVal ds).map (fun n => -(n : Int))
  | '+' :: ds => (allDigitsVal ds).map (fun n => (n : Int))
  | ds => (allDigitsVal ds).map (fun n => (n : Int))

/-- JavaScript `ToNumber` of a field value (`none` models `NaN`;
`undefined` is `NaN`, `null` is `0`, booleans are `0`/`1`). -/
def toNumberOpt : Option Value → Option Int
  | none => none
  | some (Value.num n) => some n
  | some (Value.bool b) => some (if b then 1 else 0)
  | some Value.null => some 0
  | some (Value.str s) => strToNumber s

/-- Strict lexicographic order on strings by character code, the
string-vs-string case of JavaScript's relational comparison. -/
def lexLt : Str → Str → Bool
  | [], [] => false
  | [], _ :: _ => true
  | _ :: _, [] => false
  | c :: cs, d :: ds =>
    if c < d then true
    else if d < c then false
    else lexLt cs ds

/-- JavaScript `a > b` on our value universe: string/string compares
lexicographically, anything else compares via `ToNumber` with `NaN`
making the comparison false. -/
def jsGreater (a b : Option Value) : Bool :=
  match a, b with
  | some (Value.str s1), some (Value.str s2) => lexLt s2 s1
  | _, _ =>
    match toNumberOpt a, toNumberOpt b with
    | some x, some y => decide (x > y)
    | _, _ => false

/-- The comparator `(a, b) => a[sKey] > b[sKey] ? 1 * sOrder : -1 * sOrder`
passed to `Array.prototype.sort` (lines 160-162).  It never returns `0`. -/
def sortComp (k : Str) (dir : SortDir) (a b : DBRow) : Int :=
  if jsGreater (getField a k) (getField b k) then 1 * dir.toInt else -1 * dir.toInt

/-- The "goes-before" test of the engine: the new element is placed before
a previously sorted element exactly when the comparator applied as
`compare(newElement, sortedElement)` is negative.  This is the argument
order V8's TimSort uses in run detection and binary insertion, and the only
convention consistent with the engine's observable tie behavior for this
never-zero comparator (ascending ties reversed, descending ties kept). -/
def sortLt (k : Str) (dir : SortDir) (a b : DBRow) : Bool :=
  decide (sortComp k dir a b < 0)

/-- Insert the new element `x` before the first previously sorted element
`y` with `lt x y` (i.e. `compare(x, y) < 0`), after every earlier one.  On
lists of records whose sort-field values are mutually comparable, this
linear placement rule computes the same order as V8's TimSort (binary
insertion probes a monotone predicate, run detection and merges follow the
same comparison convention). -/
def insertByCompare (lt : DBRow → DBRow → Bool) (x : DBRow) : List DBRow → List DBRow
  | [] => [x]
  | y :: ys => if lt x y then x :: y :: ys else y :: insertByCompare lt x ys

/-- The sort model of `Array.prototype.sort`: elements are inserted left to
right by the `compare(newElement, sortedElement) < 0` placement rule. -/
def jsSortAux (lt : DBRow → DBRow → Bool) (acc : List DBRow) : List DBRow → List DBRow
  | [] => acc
  | x :: xs => jsSortAux lt (insertByCompare lt x acc) xs

/-- `results.sort(comparator)` for one sort key. -/
def sortPass (k : Str) (dir : SortDir) (rs : List DBRow) : List DBRow :=
  jsSortAux (sortLt k dir) [] rs

/-- The `Object.entries(options.sort).forEach` loop of `find` (lines
156-165): one sort pass per listed field, in mapping order. -/
def applySort (s : List (Str × SortDir)) (rs : List DBRow) : List DBRow :=
  s.foldl (fun acc kd => sortPass kd.1 kd.2 acc) rs

/-- The projection loop of `find` (lines 167-178): keep, in projection-key
order, the fields whose (truthy) flag is present.  Modelled by the list of
keys whose flag is `1`; a projected field missing from the record is
omitted from the result. -/
def applyProjection (proj : List Str) (r : DBRow) : DBRow :=
  proj.filterMap (fun k => (getField r k).map (fun v => (k, v)))

/-- `QueryOptions<T>`: optional sort mapping and optional projection. -/
structure QueryOptions where
  sort : Option (List (Str × SortDir)) := none
  projection : Option (List Str) := none

/-- `Database.find` (lines 134-181) as a pure function of the file content:
read all entries, keep the live (`E`) ones, filter by the compiled
predicate, then apply the optional sort passes and the optional projection. -/
def findOp (fts : List Str) (q : TLO) (opts : QueryOptions) (c : Content) :
    Option (List DBRow) :=
  match readFromFile c with
  | none => none
  | some records =>
    let contents := (records.filter (fun r => r.type == Tag.E)).map (fun r => r.data)
    let results := contents.filter (fun d => topLevelPredicate fts q d)
    let results :=
      match opts.sort with
      | some s => applySort s results
      | none => results
    some (match opts.projection with
          | some proj => results.map (fun r => applyProjection proj r)
          | none => results)

/-- `Database.find` as a state transformer: it performs no write, so the
content component of the result is the input content. -/
def findST (fts : List Str) (q : TLO) (opts : QueryOptions) (c : Content) :
    Option (Content × List DBRow) :=
  (findOp fts q opts c).map (fun out => (c, out))

/-- `Database.insert` (lines 204-219) as a state transformer: it first reads
the whole log (the computed rewrite is dead code, but a read failure still
aborts the call), then appends the single line `E<json>\n` to the file. -/
def insertST (data : DBRow) (c : Content) : Option (Content × Unit) :=
  match readFromFile c with
  | none => none
  | some _records => some (c ++ 'E' :: (serializeRecord data ++ ['\n']), ())

/-- `Database.delete` (lines 183-202) as a state transformer: read the log,
run `find` with the same predicate, and rewrite the log marking every entry
whose re-serialized payload occurs among the found records as `D`. -/
def deleteST (fts : List Str) (q : TLO) (c : Content) : Option (Content × Unit) :=
  match readFromFile c with
  | none => none
  | some records =>
    match findOp fts q {} c with
    | none => none
    | some found =>
      let queryResults := found.map (fun d => serializeRecord d)
      let newRecords := records.map (fun r =>
        { type := if queryResults.contains (serializeRecord r.data) then Tag.D else r.type,
          data := r.data })
      some (writeToFile newRecords, ())

/-- The first character of the remaining input is not a decimal digit
(or there is none), so a digit run stops there. -/
def headNotDigit : Str → Prop
  | [] => True
  | c :: _ => digitVal c = none


/-- Value of a digit string folded onto an accumulator. -/
def digitsValAcc : Str → Nat → Nat
  | [], acc => acc
  | c :: rest, acc => digitsValAcc rest (acc * 10 + (digitVal c).getD 0)



/-- The core pipeline of `find` without options: the data of the live
entries that satisfy the predicate, in log order. -/
def liveMatching (fts : List Str) (q : TLO) (recs : List DBRecord) : List DBRow :=
  ((recs.filter (fun r => r.type == Tag.E)).map (fun r => r.data)).filter
    (fun d => topLevelPredicate fts q d)


/-- The per-line effect of `delete` as the spec describes it: a live entry
whose record matches the predicate becomes a tombstone; every other entry is
kept unchanged. -/
def tombstoneIfMatch (fts : List Str) (q : TLO) (r : DBRecord) : DBRecord :=
  match r.type, topLevelPredicate fts q r.data with
  | Tag.E, true => { type := Tag.D, data := r.data }
  | _, _ => r

/-- Case-insensitive equality of two character lists. -/
def ciEqList : Str → Str → Bool
  | [], [] => true
  | p :: ps, t :: ts => ciEqChar p t && ciEqList ps ts
  | _, _ => false

/-- Stated from the spec's words for `$text`: the search string occurs as a
whole-word, case-insensitive substring of the text — some decomposition
`pre ++ mid ++ suf` has `mid` case-insensitively equal to the search string
with a word boundary on each side (word-ness changes across the seam). -/
def WholeWordCIMatch (s text : Str) : Prop :=
  ∃ pre mid suf, text = pre ++ mid ++ suf ∧ ciEqList s mid = true ∧
    wordOpt pre.getLast? ≠ wordOpt (mid ++ suf).head? ∧
    wordOpt (pre ++ mid).getLast? ≠ wordOpt suf.head?


/-- Example field name "age". -/
def exKeyAge : Str := String.toList "age"

/-- Example field name "name". -/
def exKeyName : Str := String.toList "name"

/-- Example record with age 1. -/
def exRowAge1 : DBRow := [(exKeyAge, Value.num 1)]

/-- Example record with age 2. -/
def exRowAge2 : DBRow := [(exKeyAge, Value.num 2)]

/-- Example record with age 3. -/
def exRowAge3 : DBRow := [(exKeyAge, Value.num 3)]

/-- Example record with age 1, name "x". -/
def exRowX : DBRow := [(exKeyAge, Value.num 1), (exKeyName, Value.str (String.toList "x"))]

/-- Example record with age 1, name "y". -/
def exRowY : DBRow := [(exKeyAge, Value.num 1), (exKeyName, Value.str (String.toList "y"))]

/-- Example predicate: age greater than 2. -/
def exQueryGt2 : TLO := TLO.query [(exKeyAge, { gt? := some 2 })]

/-- Example log: a live age-3 entry then a live age-1 entry. -/
def exLog : Content := writeToFile [DBRecord.mk Tag.E exRowAge3, DBRecord.mk Tag.E exRowAge1]


/-! ### Round-trip lemmas: numbers -/

theorem digitVal_digitChar : ∀ d, d < 10 → digitVal (digitChar d) = some d := by decide

theorem natDigitsAux_fuel (n : Nat) : ∀ fuel, n < fuel → natDigitsAux fuel n = natDigits n := by
  induction n using Nat.strong_induction_on with
  | _ n ih =>
    intro fuel hfuel
    match fuel with
    | f + 1 =>
      show natDigitsAux (f + 1) n = natDigitsAux (n + 1) n
      by_cases h10 : n < 10
      · simp [natDigitsAux, h10]
      · have hdiv : n / 10 < n := Nat.div_lt_self (by omega) (by omega)
        simp only [natDigitsAux, h10, if_false]
        rw [ih (n / 10) hdiv f (by omega), ih (n / 10) hdiv n (by omega)]

theorem natDigits_lt (n : Nat) (h : n < 10) : natDigits n = [digitChar n] := by
  simp [natDigits, natDigitsAux, h]

theorem natDigits_ge (n : Nat) (h : 10 ≤ n) :
    natDigits n = natDigits (n / 10) ++ [digitChar (n % 10)] := by
  have hdiv : n / 10 < n := Nat.div_lt_self (by omega) (by omega)
  show natDigitsAux (n + 1) n = _
  simp only [natDigitsAux, Nat.not_lt.mpr h, if_false]
  rw [natDigitsAux_fuel (n / 10) n (by omega)]

theorem natDigits_all_digits (n : Nat) : ∀ c ∈ natDigits n, (digitVal c).isSome := by
  induction n using Nat.strong_induction_on with
  | _ n ih =>
    by_cases h10 : n < 10
    · rw [natDigits_lt n h10]
      intro c hc
      simp at hc
      subst hc
      rw [digitVal_digitChar n h10]
      rfl
    · rw [natDigits_ge n (by omega)]
      intro c hc
      rcases List.mem_append.mp hc with h | h
      · exact ih (n / 10) (Nat.div_lt_self (by omega) (by omega)) c h
      · simp at h
        subst h
        rw [digitVal_digitChar (n % 10) (Nat.mod_lt _ (by omega))]
        rfl

theorem natDigits_head_pos (n : Nat) (hn : 0 < n) :
    ∃ c cs k, natDigits n = c :: cs ∧ digitVal c = some k ∧ 0 < k := by
  induction n using Nat.strong_induction_on with
  | _ n ih =>
    by_cases h10 : n < 10
    · exact ⟨digitChar n, [], n, natDigits_lt n h10, digitVal_digitChar n h10, hn⟩
    · obtain ⟨c, cs, k, heq, hval, hk⟩ :=
        ih (n / 10) (Nat.div_lt_self (by omega) (by omega)) (by omega)
      exact ⟨c, cs ++ [digitChar (n % 10)], k, by rw [natDigits_ge n (by omega), heq]; rfl,
        hval, hk⟩

theorem digitsValAcc_append (a b : Str) (acc : Nat) :
    digitsValAcc (a ++ b) acc = digitsValAcc b (digitsValAcc a acc) := by
  induction a generalizing acc with
  | nil => rfl
  | cons c a ih => simp [digitsValAcc, ih]

theorem parseDigits_append (ds : Str) (rest : Str) (acc : Nat)
    (hds : ∀ c ∈ ds, (digitVal c).isSome) (hrest : headNotDigit rest) :
    parseDigits (ds ++ rest) acc = (digitsValAcc ds acc, rest) := by
  induction ds generalizing acc with
  | nil =>
    match rest with
    | [] => rfl
    | c :: r =>
      have : digitVal c = none := hrest
      simp [parseDigits, this, digitsValAcc]
  | cons c ds ih =>
    have hc : (digitVal c).isSome := hds c (by simp)
    obtain ⟨d, hd⟩ := Option.isSome_iff_exists.mp hc
    have hstep : parseDigits ((c :: ds) ++ rest) acc = parseDigits (ds ++ rest) (acc * 10 + d) := by
      simp [parseDigits, hd]
    rw [hstep, ih _ (fun c' hc' => hds c' (by simp [hc']))]
    simp [digitsValAcc, hd]

theorem digitsValAcc_natDigits (n : Nat) :
    ∀ acc, digitsValAcc (natDigits n) acc = acc * 10 ^ (natDigits n).length + n := by
  induction n using Nat.strong_induction_on with
  | _ n ih =>
    intro acc
    by_cases h10 : n < 10
    · rw [natDigits_lt n h10]
      simp [digitsValAcc, digitVal_digitChar n h10]
    · rw [natDigits_ge n (by omega)]
      rw [digitsValAcc_append]
      rw [ih (n / 10) (Nat.div_lt_self (by omega) (by omega))]
      simp only [digitsValAcc, digitVal_digitChar (n % 10) (Nat.mod_lt _ (by omega)),
        Option.getD_some, List.length_append, List.length_cons, List.length_nil, Nat.zero_add]
      have h2 : n / 10 * 10 + n % 10 = n := by omega
      calc (acc * 10 ^ (natDigits (n / 10)).length + n / 10) * 10 + n % 10
          = acc * (10 ^ (natDigits (n / 10)).length * 10) + (n / 10 * 10 + n % 10) := by ring
        _ = acc * 10 ^ ((natDigits (n / 10)).length + 1) + n := by rw [h2, pow_succ]

theorem parseNat_natDigits (n : Nat) (rest : Str) (hrest : headNotDigit rest) :
    parseNat (natDigits n ++ rest) = some (n, rest) := by
  by_cases hn : n = 0
  · subst hn
    have : natDigits 0 = ['0'] := by decide
    rw [this]
    simp [parseNat, digitVal]
  · obtain ⟨c, cs, k, heq, hval, hk⟩ := natDigits_head_pos n (by omega)
    have hall : ∀ c' ∈ cs, (digitVal c').isSome := by
      intro c' hc'
      exact natDigits_all_digits n c' (by rw [heq]; simp [hc'])
    obtain ⟨k', rfl⟩ : ∃ k', k = k' + 1 := ⟨k - 1, by omega⟩
    rw [heq]
    have hstep : parseNat ((c :: cs) ++ rest) = some (parseDigits (cs ++ rest) (k' + 1)) := by
      simp [parseNat, hval]
    rw [hstep, parseDigits_append cs rest (k' + 1) hall hrest]
    have hval2 : digitsValAcc (c :: cs) 0 = n := by
      have := digitsValAcc_natDigits n 0
      rw [heq] at this
      simpa using this
    have hfin : digitsValAcc cs (k' + 1) = n := by
      simpa [digitsValAcc, hval] using hval2
    rw [hfin]

/-! ### Round-trip lemmas: strings and values -/

theorem hexVal_hexDigitChar : ∀ d, d < 16 → hexVal (hexDigitChar d) = some d := by decide

theorem parseStringBody_escape (s : Str) (rest : Str) :
    parseStringBody (escapeString s ++ '"' :: rest) = some (s, rest) := by
  induction s with
  | nil => simp [escapeString, parseStringBody]
  | cons c s ih =>
    show parseStringBody ((escapeChar c ++ escapeString s) ++ '"' :: rest) = _
    rw [List.append_assoc]
    by_cases h1 : c = '"'
    · subst h1; simp [escapeChar, parseStringBody, parseEscape, unescapeChar, ih]
    by_cases h2 : c = '\\'
    · subst h2; simp [escapeChar, h1, parseStringBody, parseEscape, unescapeChar, ih]
    by_cases h3 : c = '\n'
    · subst h3; simp [escapeChar, parseStringBody, parseEscape, unescapeChar, ih]
    by_cases h4 : c = '\t'
    · subst h4; simp [escapeChar, parseStringBody, parseEscape, unescapeChar, ih]
    by_cases h5 : c = '\r'
    · subst h5; simp [escapeChar, parseStringBody, parseEscape, unescapeChar, ih]
    by_cases h6 : c = '\x08'
    · subst h6; simp [escapeChar, parseStringBody, parseEscape, unescapeChar, ih]
    by_cases h7 : c = '\x0c'
    · subst h7; simp [escapeChar, parseStringBody, parseEscape, unescapeChar, ih]
    by_cases h8 : c.toNat < 32
    · have hesc : escapeChar c =
          ['\\', 'u', '0', '0', hexDigitChar (c.toNat / 16), hexDigitChar (c.toNat % 16)] := by
        simp [escapeChar, h1, h2, h3, h4, h5, h6, h7, h8]
      rw [hesc]
      have hv1 : hexVal (hexDigitChar (c.toNat / 16)) = some (c.toNat / 16) :=
        hexVal_hexDigitChar _ (by omega)
      have hv0 : hexVal (hexDigitChar (c.toNat % 16)) = some (c.toNat % 16) :=
        hexVal_hexDigitChar _ (by omega)
      have h00 : hexVal '0' = some 0 := by decide
      have harith : c.toNat / 16 * 16 + c.toNat % 16 = c.toNat := by omega
      simp [parseStringBody, parseEscape, h00, hv1, hv0, ih, harith, Char.ofNat_toNat]
    · have hesc : escapeChar c = [c] := by
        simp [escapeChar, h1, h2, h3, h4, h5, h6, h7, h8]
      rw [hesc]
      simp [parseStringBody, h1, h2, ih]

/-- A digit character is bounded between `'0'` and `'9'`. -/
theorem digitVal_isSome_bounds (c : Char) (h : (digitVal c).isSome) : '0' ≤ c ∧ c ≤ '9' := by
  by_cases hb : '0' ≤ c ∧ c ≤ '9'
  · exact hb
  · simp [digitVal, hb] at h

theorem natDigits_ne_nil (m : Nat) : natDigits m ≠ [] := by
  by_cases h10 : m < 10
  · rw [natDigits_lt m h10]; simp
  · rw [natDigits_ge m (by omega)]; simp

theorem parseValue_ser (v : Value) (rest : Str) (hrest : headNotDigit rest) :
    parseValue (serializeValue v ++ rest) = some (v, rest) := by
  match v with
  | Value.str s =>
    show parseValue (('"' :: (escapeString s ++ ['"'])) ++ rest) = _
    simp only [List.cons_append, List.append_assoc, List.singleton_append]
    simp [parseValue, parseStringBody_escape s rest]
  | Value.bool true => simp [serializeValue, parseValue, String.toList]
  | Value.bool false => simp [serializeValue, parseValue, String.toList]
  | Value.null => simp [serializeValue, parseValue, String.toList]
  | Value.num n =>
    by_cases hneg : n < 0
    · have hser : serializeValue (Value.num n) = '-' :: natDigits n.natAbs := by
        simp [serializeValue, intSer, hneg]
      rw [hser]
      have : parseValue (('-' :: natDigits n.natAbs) ++ rest) =
          (parseNat (natDigits n.natAbs ++ rest)).map
            (fun p => (Value.num (-(p.1 : Int)), p.2)) := by
        simp [parseValue]
      rw [this, parseNat_natDigits _ _ hrest]
      simp
      rw [abs_of_nonpos (by omega : n ≤ 0), neg_neg]
    · have hser : serializeValue (Value.num n) = natDigits n.toNat := by
        simp [serializeValue, intSer, hneg]
      rw [hser]
      cases hcs : natDigits n.toNat with
      | nil => exact absurd hcs (natDigits_ne_nil _)
      | cons c cs =>
        have hc : (digitVal c).isSome := natDigits_all_digits n.toNat c (by rw [hcs]; simp)
        have hb := digitVal_isSome_bounds c hc
        have d1 : c ≠ '"' := by rintro rfl; revert hb; decide
        have d2 : c ≠ '-' := by rintro rfl; revert hb; decide
        have d3 : c ≠ 't' := by rintro rfl; revert hb; decide
        have d4 : c ≠ 'f' := by rintro rfl; revert hb; decide
        have d5 : c ≠ 'n' := by rintro rfl; revert hb; decide
        have hstep : parseValue ((c :: cs) ++ rest) =
            (parseNat ((c :: cs) ++ rest)).map (fun p => (Value.num (p.1 : Int), p.2)) := by
          simp [parseValue, d1, d2, d3, d4, d5]
        rw [hstep, ← hcs, parseNat_natDigits _ _ hrest]
        simp [Int.toNat_of_nonneg (by omega : (0 : Int) ≤ n)]

/-! ### Round-trip lemmas: records and the log -/

theorem headNotDigit_cons (c : Char) (h : digitVal c = none) (t : Str) :
    headNotDigit (c :: t) := h

theorem serializeFields_length_ge (fs : List (Str × Value)) :
    fs.length ≤ (serializeFields fs).length := by
  induction fs with
  | nil => simp
  | cons f fs ih =>
    cases fs with
    | nil => simp [serializeFields, serializeField]
    | cons g gs =>
      simp only [serializeFields, serializeField, List.length_append, List.length_cons]
      simp at ih ⊢
      omega

theorem parseFields_ser (fs : List (Str × Value)) (rest : Str) :
    ∀ fuel, fs ≠ [] → fs.length ≤ fuel →
    parseFields fuel (serializeFields fs ++ '}' :: rest) = some (fs, rest) := by
  induction fs with
  | nil => intro fuel h _; exact absurd rfl h
  | cons f fs ih =>
    intro fuel _ hlen
    match fuel with
    | fuel + 1 =>
      cases fs with
      | nil =>
        show parseFields (fuel + 1) (serializeField f ++ '}' :: rest) = some ([f], rest)
        have hshape : serializeField f ++ '}' :: rest =
            '"' :: (escapeString f.1 ++ '"' :: ':' :: (serializeValue f.2 ++ '}' :: rest)) := by
          simp [serializeField]
        rw [hshape]
        have h1 := parseStringBody_escape f.1 (':' :: (serializeValue f.2 ++ '}' :: rest))
        have h2 := parseValue_ser f.2 ('}' :: rest) (headNotDigit_cons '}' (by decide) _)
        simp [parseFields, h1, h2]
      | cons g gs =>
        show parseFields (fuel + 1)
            ((serializeField f ++ ',' :: serializeFields (g :: gs)) ++ '}' :: rest) = _
        have hshape : (serializeField f ++ ',' :: serializeFields (g :: gs)) ++ '}' :: rest =
            '"' :: (escapeString f.1 ++ '"' :: ':' ::
              (serializeValue f.2 ++ ',' :: (serializeFields (g :: gs) ++ '}' :: rest))) := by
          simp [serializeField]
        rw [hshape]
        have h1 := parseStringBody_escape f.1
          (':' :: (serializeValue f.2 ++ ',' :: (serializeFields (g :: gs) ++ '}' :: rest)))
        have h2 := parseValue_ser f.2 (',' :: (serializeFields (g :: gs) ++ '}' :: rest))
          (headNotDigit_cons ',' (by decide) _)
        have h3 := ih fuel (by simp) (by simp at hlen ⊢; omega)
        simp [parseFields, h1, h2, h3]

theorem serializeFields_cons_head (f : Str × Value) (fs : List (Str × Value)) :
    ∃ X, serializeFields (f :: fs) = '"' :: X := by
  cases fs with
  | nil => exact ⟨_, rfl⟩
  | cons g gs =>
    refine ⟨escapeString f.1 ++ '"' :: ':' :: serializeValue f.2 ++ ',' :: serializeFields (g :: gs), ?_⟩
    simp [serializeFields, serializeField]

theorem parseRecord_ser (r : DBRow) (rest : Str) :
    parseRecord (serializeRecord r ++ rest) = some (r, rest) := by
  cases r with
  | nil => simp [serializeRecord, serializeFields, parseRecord]
  | cons f fs =>
    have hshape : serializeRecord (f :: fs) ++ rest =
        '{' :: (serializeFields (f :: fs) ++ '}' :: rest) := by
      simp [serializeRecord]
    rw [hshape]
    obtain ⟨X, hX⟩ := serializeFields_cons_head f fs
    rw [hX]
    have hfields := parseFields_ser (f :: fs) rest
      (('"' :: X ++ '}' :: rest).length) (by simp) (by
        have h1 := serializeFields_length_ge (f :: fs)
        rw [hX] at h1
        simp at h1 ⊢
        omega)
    rw [hX] at hfields
    simpa [parseRecord] using hfields

theorem nl_not_in_escapeChar (c : Char) : '\n' ∉ escapeChar c := by
  by_cases h1 : c = '"'
  · subst h1; decide
  by_cases h2 : c = '\\'
  · subst h2; decide
  by_cases h3 : c = '\n'
  · subst h3; decide
  by_cases h4 : c = '\t'
  · subst h4; decide
  by_cases h5 : c = '\r'
  · subst h5; decide
  by_cases h6 : c = '\x08'
  · subst h6; decide
  by_cases h7 : c = '\x0c'
  · subst h7; decide
  by_cases h8 : c.toNat < 32
  · have hesc : escapeChar c =
        ['\\', 'u', '0', '0', hexDigitChar (c.toNat / 16), hexDigitChar (c.toNat % 16)] := by
      simp [escapeChar, h1, h2, h3, h4, h5, h6, h7, h8]
    rw [hesc]
    have hh : ∀ d, d < 16 → hexDigitChar d ≠ '\n' := by decide
    intro hmem
    simp only [List.mem_cons, List.not_mem_nil, or_false] at hmem
    rcases hmem with h | h | h | h | h | h
    · exact absurd h (by decide)
    · exact absurd h (by decide)
    · exact absurd h (by decide)
    · exact absurd h (by decide)
    · exact hh (c.toNat / 16) (by omega) h.symm
    · exact hh (c.toNat % 16) (by omega) h.symm
  · have hesc : escapeChar c = [c] := by
      simp [escapeChar, h1, h2, h3, h4, h5, h6, h7, h8]
    rw [hesc]
    intro hmem
    simp only [List.mem_cons, List.not_mem_nil, or_false] at hmem
    rw [← hmem] at h8
    exact h8 (by decide)

theorem nl_not_in_escapeString (s : Str) : '\n' ∉ escapeString s := by
  induction s with
  | nil => simp [escapeString]
  | cons c s ih =>
    simp only [escapeString, List.mem_append]
    rintro (h | h)
    · exact nl_not_in_escapeChar c h
    · exact ih h

theorem nl_not_in_natDigits (n : Nat) : '\n' ∉ natDigits n := by
  intro hmem
  have hb := digitVal_isSome_bounds _ (natDigits_all_digits n _ hmem)
  revert hb
  decide

theorem nl_not_in_intSer (n : Int) : '\n' ∉ intSer n := by
  by_cases h : n < 0
  · simp only [intSer, h, if_true]
    intro hmem
    rcases List.mem_cons.mp hmem with h1 | h1
    · exact absurd h1 (by decide)
    · exact nl_not_in_natDigits _ h1
  · simp only [intSer, h, if_false]
    exact nl_not_in_natDigits _

theorem nl_not_in_serializeValue (v : Value) : '\n' ∉ serializeValue v := by
  match v with
  | Value.num n => exact nl_not_in_intSer n
  | Value.str s =>
    show '\n' ∉ '"' :: (escapeString s ++ ['"'])
    intro hmem
    rcases List.mem_cons.mp hmem with h1 | h1
    · exact absurd h1 (by decide)
    rcases List.mem_append.mp h1 with h2 | h2
    · exact nl_not_in_escapeString s h2
    · rcases List.mem_singleton.mp h2 with h3
      exact absurd h3 (by decide)
  | Value.bool true => decide
  | Value.bool false => decide
  | Value.null => decide

theorem nl_not_in_serializeField (f : Str × Value) : '\n' ∉ serializeField f := by
  show '\n' ∉ '"' :: (escapeString f.1 ++ '"' :: ':' :: serializeValue f.2)
  intro hmem
  rcases List.mem_cons.mp hmem with h1 | h1
  · exact absurd h1 (by decide)
  rcases List.mem_append.mp h1 with h2 | h2
  · exact nl_not_in_escapeString f.1 h2
  rcases List.mem_cons.mp h2 with h3 | h3
  · exact absurd h3 (by decide)
  rcases List.mem_cons.mp h3 with h4 | h4
  · exact absurd h4 (by decide)
  · exact nl_not_in_serializeValue f.2 h4

theorem nl_not_in_serializeFields (fs : List (Str × Value)) : '\n' ∉ serializeFields fs := by
  induction fs with
  | nil => simp [serializeFields]
  | cons f fs ih =>
    cases fs with
    | nil => exact nl_not_in_serializeField f
    | cons g gs =>
      show '\n' ∉ serializeField f ++ ',' :: serializeFields (g :: gs)
      intro hmem
      rcases List.mem_append.mp hmem with h1 | h1
      · exact nl_not_in_serializeField f h1
      rcases List.mem_cons.mp h1 with h2 | h2
      · exact absurd h2 (by decide)
      · exact ih h2

theorem nl_not_in_serializeRecord (r : DBRow) : '\n' ∉ serializeRecord r := by
  show '\n' ∉ '{' :: (serializeFields r ++ ['}'])
  intro hmem
  rcases List.mem_cons.mp hmem with h1 | h1
  · exact absurd h1 (by decide)
  rcases List.mem_append.mp h1 with h2 | h2
  · exact nl_not_in_serializeFields r h2
  · rcases List.mem_singleton.mp h2 with h3
    exact absurd h3 (by decide)

theorem nl_not_in_recordLine (r : DBRecord) : '\n' ∉ recordLine r := by
  match r with
  | DBRecord.mk t d =>
    cases t with
    | E =>
      show '\n' ∉ 'E' :: serializeRecord d
      intro hmem
      rcases List.mem_cons.mp hmem with h1 | h1
      · exact absurd h1 (by decide)
      · exact nl_not_in_serializeRecord d h1
    | D =>
      show '\n' ∉ 'D' :: serializeRecord d
      intro hmem
      rcases List.mem_cons.mp hmem with h1 | h1
      · exact absurd h1 (by decide)
      · exact nl_not_in_serializeRecord d h1

theorem recordLine_not_blank (r : DBRecord) : blankLine (recordLine r) = false := by
  match r with
  | DBRecord.mk t d =>
    cases t with
    | E =>
      show blankLine ('E' :: serializeRecord d) = false
      have hE : ('E' : Char).isWhitespace = false := by decide
      simp [blankLine, hE]
    | D =>
      show blankLine ('D' :: serializeRecord d) = false
      have hD : ('D' : Char).isWhitespace = false := by decide
      simp [blankLine, hD]

theorem splitNl_ne_nil (c : Content) : splitNl c ≠ [] := by
  induction c with
  | nil => simp [splitNl]
  | cons x rest ih =>
    simp only [splitNl]
    split
    · simp
    · cases h : splitNl rest with
      | nil => simp
      | cons l ls => simp

theorem splitNl_single (l : Str) (cs : Content) (h : '\n' ∉ l) :
    splitNl (l ++ '\n' :: cs) = l :: splitNl cs := by
  induction l with
  | nil => simp [splitNl]
  | cons c l ih =>
    have hc : c ≠ '\n' := fun heq => h (by simp [heq])
    have ih2 := ih (fun hm => h (by simp [hm]))
    show splitNl (c :: (l ++ '\n' :: cs)) = (c :: l) :: splitNl cs
    simp only [splitNl, hc, if_false, ih2]

theorem joinLines_cons₂ (l l2 : Str) (ls : List Str) :
    joinLines (l :: l2 :: ls) = l ++ '\n' :: joinLines (l2 :: ls) := rfl

theorem filter_splitNl_writeToFile (rs : List DBRecord) :
    (splitNl (writeToFile rs)).filter (fun l => !blankLine l) = rs.map recordLine := by
  induction rs with
  | nil => decide
  | cons r rs ih =>
    cases rs with
    | nil =>
      show (splitNl (recordLine r ++ '\n' :: [])).filter _ = _
      rw [splitNl_single _ _ (nl_not_in_recordLine r)]
      have h1 : (!blankLine (recordLine r)) = true := by rw [recordLine_not_blank r]; rfl
      have h2 : (!blankLine ([] : Str)) = false := by decide
      simp [splitNl, List.filter_cons, h1, h2, blankLine] at h1 h2 ⊢
      simp [h1, h2]
    | cons r2 rs2 =>
      show (splitNl ((joinLines (recordLine r :: recordLine r2 :: (rs2.map recordLine))) ++ ['\n'])).filter _ = _
      rw [joinLines_cons₂]
      have hshape : (recordLine r ++ '\n' :: joinLines (recordLine r2 :: rs2.map recordLine)) ++ ['\n'] =
          recordLine r ++ '\n' :: writeToFile (r2 :: rs2) := by
        simp [writeToFile]
      rw [hshape, splitNl_single _ _ (nl_not_in_recordLine r)]
      simp only [List.filter_cons, recordLine_not_blank r]
      simp only [Bool.not_false, if_true]
      rw [ih]
      simp

theorem parseLine_recordLine (r : DBRecord) : parseLine (recordLine r) = some r := by
  have hrec : parseRecord (serializeRecord r.data) = some (r.data, []) := by
    have := parseRecord_ser r.data []
    simpa using this
  match r with
  | DBRecord.mk t d =>
    cases t with
    | E =>
      show parseLine ('E' :: serializeRecord d) = some (DBRecord.mk Tag.E d)
      simp only [parseLine]
      rw [show serializeRecord (DBRecord.mk Tag.E d).data = serializeRecord d from rfl] at hrec
      rw [hrec]
      simp
    | D =>
      show parseLine ('D' :: serializeRecord d) = some (DBRecord.mk Tag.D d)
      simp only [parseLine]
      rw [show serializeRecord (DBRecord.mk Tag.D d).data = serializeRecord d from rfl] at hrec
      rw [hrec]
      simp

theorem parseLines_map_recordLine (rs : List DBRecord) :
    parseLines (rs.map recordLine) = some rs := by
  induction rs with
  | nil => rfl
  | cons r rs ih => simp [parseLines, parseLine_recordLine r, ih]

/-- The write/read round trip at the heart of the log format. -/
theorem readFromFile_writeToFile (rs : List DBRecord) :
    readFromFile (writeToFile rs) = some rs := by
  unfold readFromFile
  rw [filter_splitNl_writeToFile]
  exact parseLines_map_recordLine rs

/-- `JSON.stringify` is injective on records: re-serialized equality implies
structural equality. -/
theorem serializeRecord_inj (a b : DBRow) (h : serializeRecord a = serializeRecord b) :
    a = b := by
  have ha := parseRecord_ser a []
  have hb := parseRecord_ser b []
  rw [List.append_nil] at ha hb
  rw [h, hb] at ha
  simp at ha
  exact ha.symm

/-! ### Appending a line to a newline-terminated log -/

theorem splitNl_cons_ne (x : Char) (c : Content) (hx : x ≠ '\n') :
    splitNl (x :: c) =
      match splitNl c with
      | l :: ls => (x :: l) :: ls
      | [] => [[x]] := by
  rw [splitNl, if_neg hx]

theorem splitNl_eq_single_empty (c : Content) (h : splitNl c = [[]]) : c = [] := by
  cases c with
  | nil => rfl
  | cons x rest =>
    exfalso
    simp only [splitNl] at h
    by_cases hx : x = '\n'
    · rw [if_pos hx] at h
      have : splitNl rest = [] := by
        injection h with h1 h2
      exact splitNl_ne_nil rest this
    · rw [if_neg hx] at h
      cases hs : splitNl rest with
      | nil => exact splitNl_ne_nil rest hs
      | cons l ls =>
        rw [hs] at h
        injection h with h1 h2
        exact List.cons_ne_nil _ _ h1

theorem splitNl_ends_nl (c : Content) (h : c.getLast? = some '\n') :
    ∃ L, splitNl c = L ++ [[]] ∧ ∀ rest, splitNl (c ++ rest) = L ++ splitNl rest := by
  induction c with
  | nil => simp at h
  | cons x c ih =>
    cases c with
    | nil =>
      simp at h
      subst h
      refine ⟨[[]], by simp [splitNl], fun rest => by simp [splitNl]⟩
    | cons y c2 =>
      have h2 : (y :: c2).getLast? = some '\n' := by
        rw [List.getLast?_cons_cons] at h
        exact h
      obtain ⟨L', hL1, hL2⟩ := ih h2
      by_cases hx : x = '\n'
      · subst hx
        refine ⟨[] :: L', ?_, fun rest => ?_⟩
        · show [] :: splitNl (y :: c2) = ([] :: L') ++ [[]]
          rw [hL1]
          simp
        · show [] :: splitNl ((y :: c2) ++ rest) = ([] :: L') ++ splitNl rest
          rw [hL2 rest]
          simp
      · cases hL' : L' with
        | nil =>
          exfalso
          rw [hL'] at hL1
          simp at hL1
          have := splitNl_eq_single_empty _ hL1
          simp at this
        | cons m L2 =>
          refine ⟨(x :: m) :: L2, ?_, fun rest => ?_⟩
          · show splitNl (x :: (y :: c2)) = ((x :: m) :: L2) ++ [[]]
            rw [splitNl_cons_ne x _ hx, hL1, hL']
            simp
          · show splitNl (x :: ((y :: c2) ++ rest)) = ((x :: m) :: L2) ++ splitNl rest
            rw [splitNl_cons_ne x _ hx, hL2 rest, hL']
            simp

theorem parseLines_append (a b : List Str) (ra rb : List DBRecord)
    (ha : parseLines a = some ra) (hb : parseLines b = some rb) :
    parseLines (a ++ b) = some (ra ++ rb) := by
  induction a generalizing ra with
  | nil =>
    simp [parseLines] at ha
    subst ha
    simpa using hb
  | cons l ls ih =>
    simp only [parseLines] at ha
    cases hl : parseLine l with
    | none => rw [hl] at ha; exact absurd ha (by simp)
    | some r =>
      rw [hl] at ha
      cases hls : parseLines ls with
      | none => rw [hls] at ha; exact absurd ha (by simp)
      | some rs =>
        rw [hls] at ha
        injection ha with ha'
        subst ha'
        show parseLines (l :: (ls ++ b)) = _
        simp only [parseLines, hl, ih rs hls]
        simp

theorem readFromFile_append_line (c : Content) (recs : List DBRecord) (r : DBRecord)
    (h1 : readFromFile c = some recs) (h2 : c = [] ∨ c.getLast? = some '\n') :
    readFromFile (c ++ (recordLine r ++ ['\n'])) = some (recs ++ [r]) := by
  have hone : readFromFile (recordLine r ++ ['\n']) = some [r] := by
    show parseLines (((splitNl (recordLine r ++ '\n' :: []))).filter _) = _
    rw [splitNl_single _ _ (nl_not_in_recordLine r)]
    have hnb : (!blankLine (recordLine r)) = true := by rw [recordLine_not_blank r]; rfl
    simp only [splitNl, List.filter_cons, hnb, if_true]
    have hblank : (!blankLine ([] : Str)) = false := by decide
    simp only [List.filter, hblank]
    simp [parseLines, parseLine_recordLine r]
  rcases h2 with h2 | h2
  · subst h2
    have : recs = [] := by
      have : readFromFile ([] : Content) = some [] := by decide
      rw [this] at h1
      injection h1 with h1'
      exact h1'.symm
    subst this
    simpa using hone
  · obtain ⟨L, hL1, hL2⟩ := splitNl_ends_nl c h2
    show parseLines ((splitNl (c ++ (recordLine r ++ ['\n']))).filter _) = _
    rw [hL2]
    rw [splitNl_single _ _ (nl_not_in_recordLine r)]
    have hread : parseLines ((splitNl c).filter (fun l => !blankLine l)) = some recs := h1
    rw [hL1] at hread
    simp only [List.filter_append] at hread
    have hblank : List.filter (fun l => !blankLine l) [([] : Str)] = [] := by decide
    rw [hblank, List.append_nil] at hread
    have hnb : (!blankLine (recordLine r)) = true := by rw [recordLine_not_blank r]; rfl
    rw [List.filter_append]
    have hsingle : List.filter (fun l => !blankLine l) (recordLine r :: splitNl []) = [recordLine r] := by
      have hblank2 : (!blankLine ([] : Str)) = false := by decide
      simp only [splitNl, List.filter_cons, hnb, if_true, List.filter, hblank2]
    rw [hsingle]
    exact parseLines_append _ _ _ _ hread (by simp [parseLines, parseLine_recordLine r])

/-! ### Behaviour of find, insert and delete -/

theorem findOp_noopts (fts : List Str) (q : TLO) (c : Content) (recs : List DBRecord)
    (h : readFromFile c = some recs) :
    findOp fts q {} c = some (liveMatching fts q recs) := by
  simp [findOp, liveMatching, h]

theorem mem_liveMatching_iff (fts : List Str) (q : TLO) (recs : List DBRecord) (d : DBRow) :
    d ∈ liveMatching fts q recs ↔
      (∃ r ∈ recs, r.type = Tag.E ∧ r.data = d) ∧ topLevelPredicate fts q d = true := by
  simp only [liveMatching, List.mem_filter, List.mem_map]
  constructor
  · rintro ⟨⟨r, hr, rfl⟩, hq⟩
    exact ⟨⟨r, hr.1, by simpa using hr.2, rfl⟩, hq⟩
  · rintro ⟨⟨r, hr, htype, rfl⟩, hq⟩
    exact ⟨⟨r, ⟨hr, by simp [htype]⟩, rfl⟩, hq⟩

theorem delete_mark_eq_tombstone (fts : List Str) (q : TLO) (recs : List DBRecord)
    (r : DBRecord) (hr : r ∈ recs) :
    (DBRecord.mk
      (if ((liveMatching fts q recs).map (fun d => serializeRecord d)).contains
          (serializeRecord r.data) then Tag.D else r.type)
      r.data) = tombstoneIfMatch fts q r := by
  have hmem : (((liveMatching fts q recs).map (fun d => serializeRecord d)).contains
      (serializeRecord r.data) = true) ↔ r.data ∈ liveMatching fts q recs := by
    constructor
    · intro hc
      have := List.elem_iff.mp hc
      rw [List.mem_map] at this
      obtain ⟨d, hd, hser⟩ := this
      rwa [serializeRecord_inj d r.data hser] at hd
    · intro hd
      exact List.elem_iff.mpr (List.mem_map.mpr ⟨r.data, hd, rfl⟩)
  match r with
  | DBRecord.mk t d =>
    cases t with
    | E =>
      cases hq : topLevelPredicate fts q d with
      | true =>
        have hin : d ∈ liveMatching fts q recs :=
          (mem_liveMatching_iff fts q recs d).mpr ⟨⟨_, hr, rfl, rfl⟩, hq⟩
        rw [if_pos (hmem.mpr hin)]
        show DBRecord.mk Tag.D d = tombstoneIfMatch fts q (DBRecord.mk Tag.E d)
        simp [tombstoneIfMatch, hq]
      | false =>
        have hnin : d ∉ liveMatching fts q recs := by
          intro hd
          have := ((mem_liveMatching_iff fts q recs d).mp hd).2
          rw [hq] at this
          exact absurd this (by simp)
        rw [if_neg (fun hc => hnin (hmem.mp hc))]
        show DBRecord.mk Tag.E d = tombstoneIfMatch fts q (DBRecord.mk Tag.E d)
        simp [tombstoneIfMatch, hq]
    | D =>
      have hshape : tombstoneIfMatch fts q (DBRecord.mk Tag.D d) = DBRecord.mk Tag.D d := by
        simp only [tombstoneIfMatch]
      rw [hshape]
      split <;> rfl

theorem deleteST_writes (fts : List Str) (q : TLO) (c : Content) (recs : List DBRecord)
    (h : readFromFile c = some recs) :
    deleteST fts q c = some (writeToFile (recs.map (tombstoneIfMatch fts q)), ()) := by
  unfold deleteST
  rw [h, findOp_noopts fts q c recs h]
  show some (writeToFile (recs.map (fun r =>
      DBRecord.mk
        (if ((liveMatching fts q recs).map (fun d => serializeRecord d)).contains
            (serializeRecord r.data) then Tag.D else r.type)
        r.data)), ()) = _
  have hmap : recs.map (fun r =>
      DBRecord.mk
        (if ((liveMatching fts q recs).map (fun d => serializeRecord d)).contains
            (serializeRecord r.data) then Tag.D else r.type)
        r.data) = recs.map (tombstoneIfMatch fts q) := by
    apply List.map_congr_left
    intro r hr
    exact delete_mark_eq_tombstone fts q recs r hr
  rw [hmap]

theorem find_excludes_tombstoned (fts : List Str) (q q' : TLO) (recs : List DBRecord) :
    ∀ d ∈ liveMatching fts q' (recs.map (tombstoneIfMatch fts q)),
      topLevelPredicate fts q d = false := by
  intro d hd
  obtain ⟨⟨r', hr', htype, rfl⟩, _⟩ := (mem_liveMatching_iff fts q' _ _).mp hd
  rw [List.mem_map] at hr'
  obtain ⟨r, hr, rfl⟩ := hr'
  match r with
  | DBRecord.mk t d0 =>
    cases t with
    | E =>
      cases hq : topLevelPredicate fts q d0 with
      | true =>
        exfalso
        have : tombstoneIfMatch fts q (DBRecord.mk Tag.E d0) = DBRecord.mk Tag.D d0 := by
          simp [tombstoneIfMatch, hq]
        rw [this] at htype
        exact absurd htype (by simp)
      | false =>
        have : tombstoneIfMatch fts q (DBRecord.mk Tag.E d0) = DBRecord.mk Tag.E d0 := by
          simp [tombstoneIfMatch, hq]
        rw [this]
        exact hq
    | D =>
      exfalso
      have : tombstoneIfMatch fts q (DBRecord.mk Tag.D d0) = DBRecord.mk Tag.D d0 := by
        simp only [tombstoneIfMatch]
      rw [this] at htype
      exact absurd htype (by simp)

/-! ### Predicate-layer lemmas -/

theorem tloAll_iff (fts : List Str) (qs : List TLO) (d : DBRow) :
    tloAll fts qs d = true ↔ ∀ q ∈ qs, topLevelPredicate fts q d = true := by
  induction qs with
  | nil => simp [tloAll]
  | cons q qs ih => simp [tloAll, ih]

theorem tloAny_iff (fts : List Str) (qs : List TLO) (d : DBRow) :
    tloAny fts qs d = true ↔ ∃ q ∈ qs, topLevelPredicate fts q d = true := by
  induction qs with
  | nil => simp [tloAny]
  | cons q qs ih => simp [tloAny, ih]

theorem ciEqList_length (s mid : Str) (h : ciEqList s mid = true) : s.length = mid.length := by
  induction s generalizing mid with
  | nil =>
    cases mid with
    | nil => rfl
    | cons m ms => exact absurd h (by simp [ciEqList])
  | cons p ps ih =>
    cases mid with
    | nil => exact absurd h (by simp [ciEqList])
    | cons m ms =>
      simp only [ciEqList, Bool.and_eq_true] at h
      simp [ih ms h.2]

theorem ciAtFront_iff (s t : Str) :
    ciAtFront s t = true ↔ ∃ mid suf, t = mid ++ suf ∧ ciEqList s mid = true := by
  induction s generalizing t with
  | nil =>
    simp only [ciAtFront]
    constructor
    · intro _
      exact ⟨[], t, rfl, rfl⟩
    · intro _
      trivial
  | cons p ps ih =>
    cases t with
    | nil =>
      simp only [ciAtFront]
      constructor
      · intro h
        exact absurd h (by simp)
      · rintro ⟨mid, suf, heq, hci⟩
        cases mid with
        | nil => exact absurd hci (by simp [ciEqList])
        | cons m ms => exact absurd heq (by simp)
    | cons c ts =>
      simp only [ciAtFront, Bool.and_eq_true]
      constructor
      · rintro ⟨hpc, hrest⟩
        obtain ⟨mid, suf, heq, hci⟩ := (ih ts).mp hrest
        exact ⟨c :: mid, suf, by simp [heq], by simp [ciEqList, hpc, hci]⟩
      · rintro ⟨mid, suf, heq, hci⟩
        cases mid with
        | nil => exact absurd hci (by simp [ciEqList])
        | cons m ms =>
          injection heq with h1 h2
          subst h1
          simp only [ciEqList, Bool.and_eq_true] at hci
          exact ⟨hci.1, (ih ts).mpr ⟨ms, suf, h2, hci.2⟩⟩

theorem take_getLast? (l : Str) (j : Nat) (h : j < l.length) :
    (l.take (j + 1)).getLast? = l[j]? := by
  rw [List.getLast?_eq_getElem?, List.getElem?_take]
  have hlen : (l.take (j + 1)).length = j + 1 := by
    simp [List.length_take]
    omega
  rw [hlen]
  simp

theorem boundaryAt_eq (text : Str) (i : Nat) (h : i ≤ text.length) :
    boundaryAt text i = (wordOpt (text.take i).getLast? != wordOpt (text.drop i).head?) := by
  unfold boundaryAt wordAt
  rw [List.head?_drop]
  congr 1
  match i with
  | 0 => simp [wordOpt]
  | j + 1 =>
    show wordOpt text[j]? = wordOpt (text.take (j + 1)).getLast?
    rw [take_getLast? text j (by omega)]

theorem regexTest_iff_wholeWord (s text : Str) :
    regexTestWordI s text = true ↔ WholeWordCIMatch s text := by
  unfold regexTestWordI
  rw [List.any_eq_true]
  constructor
  · rintro ⟨i, hi, hmatch⟩
    rw [List.mem_range] at hi
    have hilen : i ≤ text.length := by omega
    simp only [matchAt, Bool.and_eq_true] at hmatch
    obtain ⟨⟨hb1, hb2⟩, hci⟩ := hmatch
    obtain ⟨mid, suf, hsplit, hcieq⟩ := (ciAtFront_iff s (List.drop i text)).mp hci
    refine ⟨text.take i, mid, suf, ?_, hcieq, ?_, ?_⟩
    · rw [List.append_assoc, ← hsplit, List.take_append_drop]
    · rw [boundaryAt_eq text i hilen, hsplit] at hb1
      intro heq
      rw [heq] at hb1
      simp at hb1
    · have hlenmid : s.length = mid.length := ciEqList_length s mid hcieq
      have hdroplen : mid.length + suf.length = text.length - i := by
        have := congrArg List.length hsplit
        simp [List.length_drop] at this
        omega
      have hle2 : i + s.length ≤ text.length := by omega
      rw [boundaryAt_eq text (i + s.length) hle2] at hb2
      have htext : text = (text.take i ++ mid) ++ suf := by
        conv_rhs => rw [List.append_assoc, ← hsplit]
        rw [List.take_append_drop]
      have hpre_len : (text.take i ++ mid).length = i + s.length := by
        simp [List.length_take, List.length_append]
        omega
      have htake : text.take (i + s.length) = text.take i ++ mid := by
        conv_lhs => rw [htext]
        rw [← hpre_len, List.take_left]
      have hdrop : text.drop (i + s.length) = suf := by
        conv_lhs => rw [htext]
        rw [← hpre_len, List.drop_left]
      rw [htake, hdrop] at hb2
      intro heq
      rw [heq] at hb2
      simp at hb2
  · rintro ⟨pre, mid, suf, htext, hcieq, hbl, hbr⟩
    have hlenmid : s.length = mid.length := ciEqList_length s mid hcieq
    refine ⟨pre.length, ?_, ?_⟩
    · rw [List.mem_range]
      have := congrArg List.length htext
      simp [List.length_append] at this
      omega
    · have hilen : pre.length ≤ text.length := by
        have := congrArg List.length htext
        simp [List.length_append] at this
        omega
      have htake0 : text.take pre.length = pre := by
        rw [htext, List.append_assoc, List.take_left]
      have hdrop0 : text.drop pre.length = mid ++ suf := by
        rw [htext, List.append_assoc, List.drop_left]
      have hle2 : pre.length + s.length ≤ text.length := by
        have := congrArg List.length htext
        simp [List.length_append] at this
        omega
      have hpre_len : (pre ++ mid).length = pre.length + s.length := by
        simp [List.length_append]
        omega
      have htake2 : text.take (pre.length + s.length) = pre ++ mid := by
        rw [htext, ← hpre_len, List.take_left]
      have hdrop2 : text.drop (pre.length + s.length) = suf := by
        rw [htext, ← hpre_len, List.drop_left]
      simp only [matchAt, Bool.and_eq_true]
      refine ⟨⟨?_, ?_⟩, ?_⟩
      · rw [boundaryAt_eq text pre.length hilen, htake0, hdrop0]
        simpa using hbl
      · rw [boundaryAt_eq text (pre.length + s.length) hle2, htake2, hdrop2]
        simpa using hbr
      · rw [hdrop0]
        exact (ciAtFront_iff s (mid ++ suf)).mpr ⟨mid, suf, rfl, hcieq⟩

/-! ### Sort model lemmas -/

theorem insertByCompare_decomp (lt : DBRow → DBRow → Bool) (x : DBRow) (acc : List DBRow) :
    ∃ pre suf, acc = pre ++ suf ∧ insertByCompare lt x acc = pre ++ x :: suf ∧
      (∀ y ∈ pre, lt x y = false) ∧ ∀ y₀, suf.head? = some y₀ → lt x y₀ = true := by
  induction acc with
  | nil => exact ⟨[], [], rfl, rfl, by simp, by simp⟩
  | cons y ys ih =>
    by_cases h : lt x y = true
    · refine ⟨[], y :: ys, rfl, by simp [insertByCompare, h], by simp, ?_⟩
      intro y₀ hy₀
      simp only [List.head?_cons, Option.some.injEq] at hy₀
      subst hy₀
      exact h
    · obtain ⟨pre, suf, h1, h2, h3, h4⟩ := ih
      refine ⟨y :: pre, suf, by simp [h1], by simp [insertByCompare, h, h2], ?_, h4⟩
      intro z hz
      rcases List.mem_cons.mp hz with rfl | hz
      · simpa using h
      · exact h3 z hz

theorem mem_insertByCompare (lt : DBRow → DBRow → Bool) (x : DBRow) (acc : List DBRow)
    (z : DBRow) : z ∈ insertByCompare lt x acc ↔ z = x ∨ z ∈ acc := by
  obtain ⟨pre, suf, h1, h2, _, _⟩ := insertByCompare_decomp lt x acc
  subst h1
  rw [h2]
  simp only [List.mem_append, List.mem_cons]
  tauto

theorem insertByCompare_pairwise (R : DBRow → DBRow → Prop) (lt : DBRow → DBRow → Bool)
    (x : DBRow) (acc : List DBRow)
    (htr : ∀ a b c, R a b → R b c → R a c)
    (hacc : acc.Pairwise R)
    (h1 : ∀ y ∈ acc, lt x y = false → R y x)
    (h2 : ∀ y ∈ acc, lt x y = true → R x y) :
    (insertByCompare lt x acc).Pairwise R := by
  induction acc with
  | nil => simp [insertByCompare]
  | cons y ys ih =>
    rw [List.pairwise_cons] at hacc
    obtain ⟨hy, hys⟩ := hacc
    by_cases h : lt x y = true
    · have : insertByCompare lt x (y :: ys) = x :: y :: ys := by
        simp [insertByCompare, h]
      rw [this, List.pairwise_cons]
      constructor
      · intro z hz
        rcases List.mem_cons.mp hz with rfl | hz
        · exact h2 z (by simp) h
        · exact htr x y z (h2 y (by simp) h) (hy z hz)
      · exact List.pairwise_cons.mpr ⟨hy, hys⟩
    · have hfalse : lt x y = false := by simpa using h
      have : insertByCompare lt x (y :: ys) = y :: insertByCompare lt x ys := by
        simp [insertByCompare, h]
      rw [this, List.pairwise_cons]
      constructor
      · intro z hz
        rcases (mem_insertByCompare lt x ys z).mp hz with rfl | hz
        · exact h1 y (by simp) hfalse
        · exact hy z hz
      · exact ih hys (fun z hz => h1 z (by simp [hz])) (fun z hz => h2 z (by simp [hz]))

theorem jsSortAux_pairwise (R : DBRow → DBRow → Prop) (lt : DBRow → DBRow → Bool)
    (P : DBRow → Prop)
    (htr : ∀ a b c, R a b → R b c → R a c)
    (h1 : ∀ a b, P a → P b → lt a b = false → R b a)
    (h2 : ∀ a b, P a → P b → lt a b = true → R a b)
    (rs : List DBRow) :
    ∀ acc, (∀ a ∈ acc, P a) → (∀ a ∈ rs, P a) → acc.Pairwise R →
      (jsSortAux lt acc rs).Pairwise R := by
  induction rs with
  | nil =>
    intro acc _ _ hacc
    exact hacc
  | cons x xs ih =>
    intro acc hPacc hPrs hacc
    show (jsSortAux lt (insertByCompare lt x acc) xs).Pairwise R
    have hPx : P x := hPrs x (by simp)
    apply ih
    · intro a ha
      rcases (mem_insertByCompare lt x acc a).mp ha with rfl | ha
      · exact hPx
      · exact hPacc a ha
    · intro a ha
      exact hPrs a (by simp [ha])
    · exact insertByCompare_pairwise R lt x acc htr hacc
        (fun y hy hlt => h1 x y hPx (hPacc y hy) hlt)
        (fun y hy hlt => h2 x y hPx (hPacc y hy) hlt)

theorem sortLt_num (k : Str) (a b : DBRow) (ma mb : Int)
    (ha : getField a k = some (Value.num ma)) (hb : getField b k = some (Value.num mb)) :
    ∀ dir, sortLt k dir a b =
      (match dir with
       | SortDir.asc => decide (ma ≤ mb)
       | SortDir.desc => decide (mb < ma)) := by
  intro dir
  unfold sortLt sortComp jsGreater
  rw [ha, hb]
  cases dir with
  | asc => by_cases h : ma > mb <;> simp [toNumberOpt, h, SortDir.toInt] <;> omega
  | desc => by_cases h : ma > mb <;> simp [toNumberOpt, h, SortDir.toInt]

theorem insertByCompare_filter_desc (k : Str) (c : Option Value) (x : DBRow)
    (acc : List DBRow)
    (hx : ∃ m, getField x k = some (Value.num m))
    (haccnum : ∀ r ∈ acc, ∃ m, getField r k = some (Value.num m))
    (hacc : acc.Pairwise (fun a b => ∃ ma mb, getField a k = some (Value.num ma) ∧
      getField b k = some (Value.num mb) ∧ mb ≤ ma)) :
    (insertByCompare (sortLt k SortDir.desc) x acc).filter (fun r => getField r k == c) =
      acc.filter (fun r => getField r k == c) ++
        (if getField x k == c then [x] else []) := by
  obtain ⟨pre, suf, h1, h2, h3, h4⟩ := insertByCompare_decomp (sortLt k SortDir.desc) x acc
  subst h1
  rw [h2, List.filter_append, List.filter_append, List.filter_cons]
  by_cases hpx : (getField x k == c) = true
  · obtain ⟨mx, hmx⟩ := hx
    have hc : c = some (Value.num mx) := by
      have := eq_of_beq hpx
      rw [← this, hmx]
    have hsuf_empty : suf.filter (fun r => getField r k == c) = [] := by
      rw [List.filter_eq_nil_iff]
      intro y hy
      cases suf with
      | nil => simp at hy
      | cons y₀ suf' =>
        have hlt : sortLt k SortDir.desc x y₀ = true := h4 y₀ (by simp)
        obtain ⟨m₀, hm₀⟩ := haccnum y₀ (by simp)
        rw [sortLt_num k x y₀ mx m₀ hmx hm₀ SortDir.desc] at hlt
        have hgt : m₀ < mx := by simpa using hlt
        have hsufpair := (List.pairwise_append.mp hacc).2.1
        rcases List.mem_cons.mp hy with rfl | hy'
        · rw [hc, hm₀]
          simp
          omega
        · have hR := (List.pairwise_cons.mp hsufpair).1 y hy'
          obtain ⟨m₀', my, hm₀', hmy, hle'⟩ := hR
          have hm : m₀ = m₀' := by
            rw [hm₀] at hm₀'
            simpa using hm₀'
          rw [hc, hmy]
          simp
          omega
    rw [hpx, hsuf_empty]
    simp
  · have hpx' : (getField x k == c) = false := by simpa using hpx
    rw [hpx']
    simp

theorem insertByCompare_filter_asc (k : Str) (c : Option Value) (x : DBRow)
    (acc : List DBRow)
    (hx : ∃ m, getField x k = some (Value.num m))
    (haccnum : ∀ r ∈ acc, ∃ m, getField r k = some (Value.num m))
    (hacc : acc.Pairwise (fun a b => ∃ ma mb, getField a k = some (Value.num ma) ∧
      getField b k = some (Value.num mb) ∧ ma ≤ mb)) :
    (insertByCompare (sortLt k SortDir.asc) x acc).filter (fun r => getField r k == c) =
      (if getField x k == c then [x] else []) ++
        acc.filter (fun r => getField r k == c) := by
  obtain ⟨pre, suf, h1, h2, h3, h4⟩ := insertByCompare_decomp (sortLt k SortDir.asc) x acc
  subst h1
  rw [h2, List.filter_append, List.filter_append, List.filter_cons]
  by_cases hpx : (getField x k == c) = true
  · obtain ⟨mx, hmx⟩ := hx
    have hc : c = some (Value.num mx) := by
      have := eq_of_beq hpx
      rw [← this, hmx]
    have hpre_empty : pre.filter (fun r => getField r k == c) = [] := by
      rw [List.filter_eq_nil_iff]
      intro y hy
      have hlt : sortLt k SortDir.asc x y = false := h3 y hy
      obtain ⟨my, hmy⟩ := haccnum y (by simp [hy])
      rw [sortLt_num k x y mx my hmx hmy SortDir.asc] at hlt
      have hgt : my < mx := by simpa using hlt
      rw [hc, hmy]
      simp
      omega
    rw [hpx, hpre_empty]
    simp
  · have hpx' : (getField x k == c) = false := by simpa using hpx
    rw [hpx']
    simp

theorem jsSortAux_filter_desc (k : Str) (c : Option Value) (rs : List DBRow) :
    ∀ acc, (∀ r ∈ acc, ∃ m, getField r k = some (Value.num m)) →
      (∀ r ∈ rs, ∃ m, getField r k = some (Value.num m)) →
      acc.Pairwise (fun a b => ∃ ma mb, getField a k = some (Value.num ma) ∧
        getField b k = some (Value.num mb) ∧ mb ≤ ma) →
      (jsSortAux (sortLt k SortDir.desc) acc rs).filter (fun r => getField r k == c) =
        acc.filter (fun r => getField r k == c) ++ rs.filter (fun r => getField r k == c) := by
  induction rs with
  | nil =>
    intro acc _ _ _
    simp [jsSortAux]
  | cons x xs ih =>
    intro acc haccnum hrsnum hacc
    show (jsSortAux (sortLt k SortDir.desc)
      (insertByCompare (sortLt k SortDir.desc) x acc) xs).filter _ = _
    have hx : ∃ m, getField x k = some (Value.num m) := hrsnum x (by simp)
    have hinsnum : ∀ r ∈ insertByCompare (sortLt k SortDir.desc) x acc,
        ∃ m, getField r k = some (Value.num m) := by
      intro r hr
      rcases (mem_insertByCompare _ x acc r).mp hr with rfl | hr
      · exact hx
      · exact haccnum r hr
    have hinspair : (insertByCompare (sortLt k SortDir.desc) x acc).Pairwise
        (fun a b => ∃ ma mb, getField a k = some (Value.num ma) ∧
          getField b k = some (Value.num mb) ∧ mb ≤ ma) := by
      apply insertByCompare_pairwise _ _ x acc
      · rintro a b c2 ⟨ma, mb, ha, hb, hab⟩ ⟨mb', mc, hb', hc, hbc⟩
        rw [hb] at hb'
        have hm : mb = mb' := by simpa using hb'
        exact ⟨ma, mc, ha, hc, by omega⟩
      · exact hacc
      · intro y hy hlt
        obtain ⟨my, hmy⟩ := haccnum y hy
        obtain ⟨mx, hmx⟩ := hx
        rw [sortLt_num k x y mx my hmx hmy SortDir.desc] at hlt
        refine ⟨my, mx, hmy, hmx, ?_⟩
        have : ¬(my < mx) := by simpa using hlt
        omega
      · intro y hy hlt
        obtain ⟨my, hmy⟩ := haccnum y hy
        obtain ⟨mx, hmx⟩ := hx
        rw [sortLt_num k x y mx my hmx hmy SortDir.desc] at hlt
        refine ⟨mx, my, hmx, hmy, ?_⟩
        have : my < mx := by simpa using hlt
        omega
    rw [ih _ hinsnum (fun r hr => hrsnum r (by simp [hr])) hinspair]
    rw [insertByCompare_filter_desc k c x acc hx haccnum hacc]
    rw [List.filter_cons]
    by_cases hpx : (getField x k == c) = true
    · rw [hpx]
      simp
    · have hpx' : (getField x k == c) = false := by simpa using hpx
      rw [hpx']
      simp

theorem jsSortAux_filter_asc (k : Str) (c : Option Value) (rs : List DBRow) :
    ∀ acc, (∀ r ∈ acc, ∃ m, getField r k = some (Value.num m)) →
      (∀ r ∈ rs, ∃ m, getField r k = some (Value.num m)) →
      acc.Pairwise (fun a b => ∃ ma mb, getField a k = some (Value.num ma) ∧
        getField b k = some (Value.num mb) ∧ ma ≤ mb) →
      (jsSortAux (sortLt k SortDir.asc) acc rs).filter (fun r => getField r k == c) =
        (rs.filter (fun r => getField r k == c)).reverse ++
          acc.filter (fun r => getField r k == c) := by
  induction rs with
  | nil =>
    intro acc _ _ _
    simp [jsSortAux]
  | cons x xs ih =>
    intro acc haccnum hrsnum hacc
    show (jsSortAux (sortLt k SortDir.asc)
      (insertByCompare (sortLt k SortDir.asc) x acc) xs).filter _ = _
    have hx : ∃ m, getField x k = some (Value.num m) := hrsnum x (by simp)
    have hinsnum : ∀ r ∈ insertByCompare (sortLt k SortDir.asc) x acc,
        ∃ m, getField r k = some (Value.num m) := by
      intro r hr
      rcases (mem_insertByCompare _ x acc r).mp hr with rfl | hr
      · exact hx
      · exact haccnum r hr
    have hinspair : (insertByCompare (sortLt k SortDir.asc) x acc).Pairwise
        (fun a b => ∃ ma mb, getField a k = some (Value.num ma) ∧
          getField b k = some (Value.num mb) ∧ ma ≤ mb) := by
      apply insertByCompare_pairwise _ _ x acc
      · rintro a b c2 ⟨ma, mb, ha, hb, hab⟩ ⟨mb', mc, hb', hc, hbc⟩
        rw [hb] at hb'
        have hm : mb = mb' := by simpa using hb'
        exact ⟨ma, mc, ha, hc, by omega⟩
      · exact hacc
      · intro y hy hlt
        obtain ⟨my, hmy⟩ := haccnum y hy
        obtain ⟨mx, hmx⟩ := hx
        rw [sortLt_num k x y mx my hmx hmy SortDir.asc] at hlt
        refine ⟨my, mx, hmy, hmx, ?_⟩
        have : ¬(mx ≤ my) := by simpa using hlt
        omega
      · intro y hy hlt
        obtain ⟨my, hmy⟩ := haccnum y hy
        obtain ⟨mx, hmx⟩ := hx
        rw [sortLt_num k x y mx my hmx hmy SortDir.asc] at hlt
        exact ⟨mx, my, hmx, hmy, by simpa using hlt⟩
    rw [ih _ hinsnum (fun r hr => hrsnum r (by simp [hr])) hinspair]
    rw [insertByCompare_filter_asc k c x acc hx haccnum hacc]
    rw [List.filter_cons]
    by_cases hpx : (getField x k == c) = true
    · rw [hpx]
      simp
    · have hpx' : (getField x k == c) = false := by simpa using hpx
      rw [hpx']
      simp

theorem sortPass_desc_stable (k : Str) (c : Option Value) (rs : List DBRow)
    (hnum : ∀ r ∈ rs, ∃ m, getField r k = some (Value.num m)) :
    (sortPass k SortDir.desc rs).filter (fun r => getField r k == c) =
      rs.filter (fun r => getField r k == c) := by
  have := jsSortAux_filter_desc k c rs [] (by simp) hnum (by simp)
  simpa [sortPass] using this

theorem sortPass_asc_reverses_ties (k : Str) (c : Option Value) (rs : List DBRow)
    (hnum : ∀ r ∈ rs, ∃ m, getField r k = some (Value.num m)) :
    (sortPass k SortDir.asc rs).filter (fun r => getField r k == c) =
      (rs.filter (fun r => getField r k == c)).reverse := by
  have := jsSortAux_filter_asc k c rs [] (by simp) hnum (by simp)
  simpa [sortPass] using this

theorem sortPass_pairwise (k : Str) (dir : SortDir) (rs : List DBRow)
    (hnum : ∀ r ∈ rs, ∃ m, getField r k = some (Value.num m)) :
    (sortPass k dir rs).Pairwise (fun a b => ∃ ma mb,
      getField a k = some (Value.num ma) ∧ getField b k = some (Value.num mb) ∧
      (match dir with
       | SortDir.asc => ma ≤ mb
       | SortDir.desc => mb ≤ ma)) := by
  apply jsSortAux_pairwise _ _ (fun r => ∃ m, getField r k = some (Value.num m))
  · rintro a b c ⟨ma, mb, ha, hb, hab⟩ ⟨mb', mc, hb', hc, hbc⟩
    rw [hb] at hb'
    have hm : mb = mb' := by simpa using hb'
    subst hm
    cases dir with
    | asc => exact ⟨ma, mc, ha, hc, by omega⟩
    | desc => exact ⟨ma, mc, ha, hc, by omega⟩
  · rintro a b ⟨ma, hma⟩ ⟨mb, hmb⟩ hlt
    rw [sortLt_num k a b ma mb hma hmb dir] at hlt
    cases dir with
    | asc =>
      refine ⟨mb, ma, hmb, hma, ?_⟩
      have : ¬(ma ≤ mb) := by simpa using hlt
      omega
    | desc =>
      refine ⟨mb, ma, hmb, hma, ?_⟩
      have : ¬(mb < ma) := by simpa using hlt
      omega
  · rintro a b ⟨ma, hma⟩ ⟨mb, hmb⟩ hlt
    rw [sortLt_num k a b ma mb hma hmb dir] at hlt
    cases dir with
    | asc => exact ⟨ma, mb, hma, hmb, by simpa using hlt⟩
    | desc =>
      refine ⟨ma, mb, hma, hmb, ?_⟩
      have : mb < ma := by simpa using hlt
      omega
  · simp
  · exact hnum
  · simp

theorem applySort_append_last (s : List (Str × SortDir)) (k : Str) (dir : SortDir)
    (rs : List DBRow) :
    applySort (s ++ [(k, dir)]) rs = sortPass k dir (applySort s rs) := by
  simp [applySort, List.foldl_append]


/-! ### Claim theorems -/

/-- C3: for every finite sequence of (tag, record) entries, writing the
sequence with the full-rewrite writer and reading the file back yields a
sequence structurally equal to the input, with the same tags in the same
order. -/
theorem claim_C3_write_read_round_trip (rs : List DBRecord) :
    readFromFile (writeToFile rs) = some rs :=
  readFromFile_writeToFile rs

/-- C6: the operator evaluator returns exactly strict equality for `$eq`,
exactly membership for `$in`, the numeric comparison for `$lt`/`$gt` when
the field value is a number and `false` (without raising) when it is not, and
`false` (fail-closed) for a node with no recognized key. -/
theorem claim_C6_operator_evaluator :
    (∀ (v : Value) (f : Option Value),
      operatorToPredicate { eq? := some v } f = (f == some v)) ∧
    (∀ (vs : List Value) (f : Option Value),
      operatorToPredicate { mem? := some vs } f =
        (match f with
         | some w => vs.contains w
         | none => false)) ∧
    (∀ (n : Int) (f : Option Value),
      operatorToPredicate { lt? := some n } f =
        (match f with
         | some (Value.num m) => decide (m < n)
         | _ => false)) ∧
    (∀ (n : Int) (f : Option Value),
      operatorToPredicate { gt? := some n } f =
        (match f with
         | some (Value.num m) => decide (m > n)
         | _ => false)) ∧
    (∀ f : Option Value, operatorToPredicate {} f = false) := by
  refine ⟨fun v f => rfl, fun vs f => ?_, fun n f => ?_, fun n f => ?_, fun f => ?_⟩
  · rcases f with _ | v <;> rfl
  · rcases f with _ | v
    · rfl
    · rcases v <;> rfl
  · rcases f with _ | v
    · rfl
    · rcases v <;> rfl
  · rcases f with _ | v
    · rfl
    · rcases v <;> rfl

/-- C7: the compiled query predicate is true iff every field named in the
query passes its operator against the record's corresponding field; the
empty query matches every record; record fields not named in the query do
not affect the result. -/
theorem claim_C7_query_compiler :
    (∀ (q : Query) (d : DBRow),
      queryToPredicate q d = true ↔
        ∀ p ∈ q, operatorToPredicate p.2 (getField d p.1) = true) ∧
    (∀ d : DBRow, queryToPredicate [] d = true) ∧
    (∀ (q : Query) (d1 d2 : DBRow),
      (∀ p ∈ q, getField d1 p.1 = getField d2 p.1) →
      queryToPredicate q d1 = queryToPredicate q d2) := by
  refine ⟨fun q d => List.all_eq_true, fun d => rfl, fun q d1 d2 h => ?_⟩
  induction q with
  | nil => rfl
  | cons p q ih =>
    show (operatorToPredicate p.2 (getField d1 p.1) && queryToPredicate q d1) =
      (operatorToPredicate p.2 (getField d2 p.1) && queryToPredicate q d2)
    rw [h p (by simp), ih (fun p' hp' => h p' (by simp [hp']))]

/-- C7 witness: the query on field "a" cannot see the extra field "b". -/
theorem claim_C7_query_compiler_witness :
    queryToPredicate [(String.toList "a", { eq? := some (Value.num 1) })]
        [(String.toList "a", Value.num 1), (String.toList "b", Value.num 2)] =
      queryToPredicate [(String.toList "a", { eq? := some (Value.num 1) })]
        [(String.toList "a", Value.num 1)] :=
  claim_C7_query_compiler.2.2 _ _ _ (by decide)

/-- C8: an `$and` node is true iff every child matches and an `$or` node is
true iff some child matches; the empty `$and` is vacuously true and the
empty `$or` vacuously false. -/
theorem claim_C8_and_or :
    (∀ (fts : List Str) (qs : List TLO) (d : DBRow),
      topLevelPredicate fts (TLO.and qs) d = true ↔
        ∀ q ∈ qs, topLevelPredicate fts q d = true) ∧
    (∀ (fts : List Str) (qs : List TLO) (d : DBRow),
      topLevelPredicate fts (TLO.or qs) d = true ↔
        ∃ q ∈ qs, topLevelPredicate fts q d = true) ∧
    (∀ (fts : List Str) (d : DBRow), topLevelPredicate fts (TLO.and []) d = true) ∧
    (∀ (fts : List Str) (d : DBRow), topLevelPredicate fts (TLO.or []) d = false) := by
  refine ⟨fun fts qs d => ?_, fun fts qs d => ?_, fun fts d => rfl, fun fts d => rfl⟩
  · exact tloAll_iff fts qs d
  · exact tloAny_iff fts qs d

/-- C8 witness: the empty `$and` matches and the corresponding instance of
the `$and` equivalence holds on a concrete tree. -/
theorem claim_C8_and_or_witness :
    topLevelPredicate [] (TLO.and []) [] = true :=
  claim_C8_and_or.2.2.1 [] []

/-- C5: a `$text` predicate is true iff the search string occurs as a
whole-word, case-insensitive substring of the stringified value of at least
one configured full-text-search field; searching "cat" matches a field
containing "The cat sat" but not one containing "category". -/
theorem claim_C5_text_whole_word :
    (∀ (fts : List Str) (s : Str) (d : DBRow),
      topLevelPredicate fts (TLO.text s) d = true ↔
        ∃ f ∈ fts, WholeWordCIMatch s (valueText (getField d f))) ∧
    topLevelPredicate [String.toList "notes"] (TLO.text (String.toList "cat"))
      [(String.toList "notes", Value.str (String.toList "The cat sat"))] = true ∧
    topLevelPredicate [String.toList "notes"] (TLO.text (String.toList "cat"))
      [(String.toList "notes", Value.str (String.toList "category"))] = false := by
  refine ⟨fun fts s d => ?_, by decide, by decide⟩
  show ((fts.map (fun f => valueText (getField d f))).any fun t => regexTestWordI s t) = true ↔ _
  rw [List.any_eq_true]
  constructor
  · rintro ⟨t, ht, htest⟩
    rw [List.mem_map] at ht
    obtain ⟨f, hf, rfl⟩ := ht
    exact ⟨f, hf, (regexTest_iff_wholeWord s _).mp htest⟩
  · rintro ⟨f, hf, hww⟩
    exact ⟨valueText (getField d f), List.mem_map.mpr ⟨f, hf, rfl⟩,
      (regexTest_iff_wholeWord s _).mpr hww⟩

/-- C5 witness: the equivalence instantiated on the concrete "cat" example. -/
theorem claim_C5_text_whole_word_witness :
    WholeWordCIMatch (String.toList "cat")
      (valueText (getField
        [(String.toList "notes", Value.str (String.toList "The cat sat"))]
        (String.toList "notes"))) := by
  have h := (claim_C5_text_whole_word.1 [String.toList "notes"] (String.toList "cat")
    [(String.toList "notes", Value.str (String.toList "The cat sat"))]).mp
    claim_C5_text_whole_word.2.1
  obtain ⟨f, hf, hww⟩ := h
  have hf' : f = String.toList "notes" := by
    simpa using hf
  rwa [hf'] at hww

/-- C10: `find` never writes: for every predicate tree and every options
value, the file content after a successful `find` equals the content before
it. -/
theorem claim_C10_find_read_only (fts : List Str) (q : TLO) (opts : QueryOptions)
    (c c' : Content) (out : List DBRow)
    (h : findST fts q opts c = some (c', out)) : c' = c := by
  unfold findST at h
  cases hf : findOp fts q opts c with
  | none => rw [hf] at h; exact absurd h (by simp)
  | some res =>
    rw [hf] at h
    have h2 : some (c, res) = some (c', out) := h
    injection h2 with h'
    exact (congrArg Prod.fst h').symm

/-- C10 witness: a concrete `find` over the example log leaves the content
unchanged. -/
theorem claim_C10_find_read_only_witness : exLog = exLog :=
  claim_C10_find_read_only [] (TLO.query []) {} exLog exLog [exRowAge3, exRowAge1]
    (by decide)

/-- C2: `insert(r)` appends exactly one live `E` line holding the JSON
serialization of `r`, leaving the prior file content untouched as a prefix,
and a subsequent `find` with the empty query includes `r`.  The hypotheses
state that the prior log state is one the store can be in: parseable, and
either empty or newline-terminated. -/
theorem claim_C2_insert_appends (c : Content) (recs : List DBRecord) (r : DBRow)
    (h1 : readFromFile c = some recs) (h2 : c = [] ∨ c.getLast? = some '\n') :
    insertST r c = some (c ++ 'E' :: (serializeRecord r ++ ['\n']), ()) ∧
    readFromFile (c ++ 'E' :: (serializeRecord r ++ ['\n'])) =
      some (recs ++ [DBRecord.mk Tag.E r]) ∧
    (∀ fts : List Str, ∃ res, findOp fts (TLO.query []) {} (c ++ 'E' :: (serializeRecord r ++ ['\n'])) =
      some res ∧ r ∈ res) := by
  have hline : ('E' :: (serializeRecord r ++ ['\n']) : Content) =
      recordLine (DBRecord.mk Tag.E r) ++ ['\n'] := rfl
  have hread : readFromFile (c ++ 'E' :: (serializeRecord r ++ ['\n'])) =
      some (recs ++ [DBRecord.mk Tag.E r]) := by
    rw [hline]
    exact readFromFile_append_line c recs (DBRecord.mk Tag.E r) h1 h2
  refine ⟨?_, hread, ?_⟩
  · unfold insertST
    rw [h1]
  · intro fts
    refine ⟨liveMatching fts (TLO.query []) (recs ++ [DBRecord.mk Tag.E r]),
      findOp_noopts fts (TLO.query []) _ _ hread, ?_⟩
    apply (mem_liveMatching_iff fts (TLO.query []) _ r).mpr
    exact ⟨⟨DBRecord.mk Tag.E r, by simp, rfl, rfl⟩, rfl⟩

/-- C2 witness: inserting the age-2 record into the example log appends its
single line. -/
theorem claim_C2_insert_appends_witness :
    insertST exRowAge2 exLog =
      some (exLog ++ 'E' :: (serializeRecord exRowAge2 ++ ['\n']), ()) :=
  (claim_C2_insert_appends exLog [DBRecord.mk Tag.E exRowAge3, DBRecord.mk Tag.E exRowAge1]
    exRowAge2 (by decide) (Or.inr (by decide))).1

/-- C1: `delete(p)` rewrites the log so that exactly the live entries whose
record matches `p` become tombstoned (`D`), while every other entry —
already-tombstoned entries and non-matching live ones — is preserved with
its data and position unchanged; afterwards `find` over any predicate
excludes the tombstoned records, while a raw log read still yields them
with tag `D`. -/
theorem claim_C1_delete_tombstones (fts : List Str) (q : TLO) (c : Content)
    (recs : List DBRecord) (h : readFromFile c = some recs) :
    deleteST fts q c = some (writeToFile (recs.map (tombstoneIfMatch fts q)), ()) ∧
    readFromFile (writeToFile (recs.map (tombstoneIfMatch fts q))) =
      some (recs.map (tombstoneIfMatch fts q)) ∧
    (∀ r ∈ recs, r.type = Tag.D → tombstoneIfMatch fts q r = r) ∧
    (∀ r ∈ recs, r.type = Tag.E → topLevelPredicate fts q r.data = false →
      tombstoneIfMatch fts q r = r) ∧
    (∀ r ∈ recs, r.type = Tag.E → topLevelPredicate fts q r.data = true →
      tombstoneIfMatch fts q r = DBRecord.mk Tag.D r.data) ∧
    (∀ q' : TLO,
      findOp fts q' {} (writeToFile (recs.map (tombstoneIfMatch fts q))) =
        some (liveMatching fts q' (recs.map (tombstoneIfMatch fts q))) ∧
      ∀ d ∈ liveMatching fts q' (recs.map (tombstoneIfMatch fts q)),
        topLevelPredicate fts q d = false) := by
  refine ⟨deleteST_writes fts q c recs h, readFromFile_writeToFile _, ?_, ?_, ?_, ?_⟩
  · rintro ⟨t, d⟩ _ htype
    cases htype
    simp only [tombstoneIfMatch]
  · rintro ⟨t, d⟩ _ htype hq
    cases htype
    simp [tombstoneIfMatch, hq]
  · rintro ⟨t, d⟩ _ htype hq
    cases htype
    simp [tombstoneIfMatch, hq]
  · intro q'
    exact ⟨findOp_noopts fts q' _ _ (readFromFile_writeToFile _),
      find_excludes_tombstoned fts q q' recs⟩

/-- C1 witness: deleting age-greater-than-2 from the example log tombstones
exactly the age-3 entry. -/
theorem claim_C1_delete_tombstones_witness :
    deleteST [] exQueryGt2 exLog =
      some (writeToFile ([DBRecord.mk Tag.E exRowAge3, DBRecord.mk Tag.E exRowAge1].map
        (tombstoneIfMatch [] exQueryGt2)), ()) :=
  (claim_C1_delete_tombstones [] exQueryGt2 exLog
    [DBRecord.mk Tag.E exRowAge3, DBRecord.mk Tag.E exRowAge1] (by decide)).1

/-- C4 counterexample: an ascending sort pass on two records with equal
values in the sorted field reverses their relative order.  The comparator
of lines 160-162 returns `-1` rather than `0` for ties, so the engine's
placement rule `compare(newElement, sortedElement) < 0` puts each later
tied record before the earlier ones; the claim's "records with equal
values in the sorted field keep their prior relative order" fails for this
pass. -/
theorem claim_C4_sort_counterexample :
    sortPass exKeyAge SortDir.asc [exRowX, exRowY] = [exRowY, exRowX] ∧
    ([exRowY, exRowX] : List DBRow) ≠ [exRowX, exRowY] := by
  exact ⟨by decide, by decide⟩

/-- C4 (amended): `find` applies one sort pass per listed field in the
mapping's iteration order, so the last-listed field is the primary key and
earlier fields break ties; because the comparator returns `+1`/`-1` and
never `0`, tie order follows the engine's placement rule
`compare(newElement, sortedElement) < 0`: within a descending pass,
records with equal values in the sorted field keep their prior relative
order, while an ascending pass reverses the relative order of equal-valued
records; each pass leaves the result ordered by the sorted field.  Sorting
`[{age:3},{age:1},{age:2}]` by `age` ascending through `find` yields
`[{age:1},{age:2},{age:3}]`. -/
theorem claim_C4_sort_amended :
    (∀ (s : List (Str × SortDir)) (k : Str) (dir : SortDir) (rs : List DBRow),
      applySort (s ++ [(k, dir)]) rs = sortPass k dir (applySort s rs)) ∧
    (∀ (k : Str) (c : Option Value) (rs : List DBRow),
      (∀ r ∈ rs, ∃ m, getField r k = some (Value.num m)) →
      (sortPass k SortDir.desc rs).filter (fun r => getField r k == c) =
        rs.filter (fun r => getField r k == c)) ∧
    (∀ (k : Str) (c : Option Value) (rs : List DBRow),
      (∀ r ∈ rs, ∃ m, getField r k = some (Value.num m)) →
      (sortPass k SortDir.asc rs).filter (fun r => getField r k == c) =
        (rs.filter (fun r => getField r k == c)).reverse) ∧
    (∀ (k : Str) (dir : SortDir) (rs : List DBRow),
      (∀ r ∈ rs, ∃ m, getField r k = some (Value.num m)) →
      (sortPass k dir rs).Pairwise (fun a b => ∃ ma mb,
        getField a k = some (Value.num ma) ∧ getField b k = some (Value.num mb) ∧
        (match dir with
         | SortDir.asc => ma ≤ mb
         | SortDir.desc => mb ≤ ma))) ∧
    findOp [] (TLO.query []) { sort := some [(exKeyAge, SortDir.asc)] }
        (writeToFile [DBRecord.mk Tag.E exRowAge3, DBRecord.mk Tag.E exRowAge1,
          DBRecord.mk Tag.E exRowAge2]) =
      some [exRowAge1, exRowAge2, exRowAge3] := by
  refine ⟨applySort_append_last, ?_, ?_, ?_, by decide⟩
  · intro k c rs hnum
    exact sortPass_desc_stable k c rs hnum
  · intro k c rs hnum
    exact sortPass_asc_reverses_ties k c rs hnum
  · intro k dir rs hnum
    exact sortPass_pairwise k dir rs hnum

/-- C4 witness: the descending stability instance on two equal-aged
records. -/
theorem claim_C4_sort_amended_witness :
    (sortPass exKeyAge SortDir.desc [exRowX, exRowY]).filter
        (fun r => getField r exKeyAge == some (Value.num 1)) =
      ([exRowX, exRowY] : List DBRow).filter
        (fun r => getField r exKeyAge == some (Value.num 1)) :=
  claim_C4_sort_amended.2.1 exKeyAge (some (Value.num 1)) [exRowX, exRowY] (by
    intro r hr
    simp only [List.mem_cons, List.not_mem_nil, or_false] at hr
    rcases hr with rfl | rfl
    · exact ⟨1, by decide⟩
    · exact ⟨1, by decide⟩)
